import Mathlib

/-! Verification of `umath` (mathutil).

A shallow embedding of the scalar primitives of `include/mathutil/umath.h`
and `src/umath.cpp`, followed by theorems about them.

Conventions of the embedding:

* machine integers are `Nat` / `Int`; a conversion to an integral type is the
  explicit reduction `IntType.cast`, and 64-bit register updates that can
  overflow carry an explicit `% 2 ^ 64`;
* `Double` is read as exact arithmetic over `ℚ` (every finite double is a
  rational number), so the angle theorems are statements about the formulas,
  not about rounding; where rounding decides what the program does (the
  conversion `CFloat` in `snap_to_grid`, the exit of the loops of
  `normalize_angle`) it is modelled by `round_to_bits`;
* loops over 64-bit registers are bounded by a fuel of 64 iterations and
  return their final state; the `*_exits` theorems show that the exit
  condition of the loop is reached within that bound;
* the angle normalisation loops and the loop of the greatest common divisor
  are unbounded and are defined by well-founded recursion with an explicit
  termination measure;
* an operation whose C++ evaluation is undefined (a modulo or division by
  zero) makes the result `none`;
* the half-precision codec works on bit patterns: a `float` is its binary32
  pattern, a half its binary16 pattern.
-/

namespace umath

/-! ## Definitions -/

/-! ### Integral types and saturating conversion (`umath.h` 291-314) -/

/-- An integral C++ type, given by its signedness and its width in bits. -/
structure IntType where
  signed : Bool
  bits : Nat
deriving DecidableEq

/-- The type `int8_t`. -/
def IntType.Int8 : IntType := ⟨true, 8⟩
/-- The type `uint8_t`. -/
def IntType.UInt8 : IntType := ⟨false, 8⟩
/-- The type `int16_t`. -/
def IntType.Int16 : IntType := ⟨true, 16⟩
/-- The type `uint16_t`. -/
def IntType.UInt16 : IntType := ⟨false, 16⟩
/-- The type `int32_t`. -/
def IntType.Int32 : IntType := ⟨true, 32⟩
/-- The type `uint32_t`. -/
def IntType.UInt32 : IntType := ⟨false, 32⟩
/-- The type `int64_t`. -/
def IntType.Int64 : IntType := ⟨true, 64⟩
/-- The type `uint64_t`. -/
def IntType.UInt64 : IntType := ⟨false, 64⟩
/-- The type `long long`, the 64-bit signed type `limit` widens through. -/
def IntType.LongLong : IntType := ⟨true, 64⟩

/-- The integral types of at most 32 bits. -/
def narrowTypes : List IntType :=
  [.Int8, .UInt8, .Int16, .UInt16, .Int32, .UInt32]

/-- The value `std::numeric_limits<t>::max()`. -/
def IntType.max (t : IntType) : Int :=
  if t.signed then 2 ^ (t.bits - 1) - 1 else 2 ^ t.bits - 1

/-- The value `std::numeric_limits<t>::lowest()`. -/
def IntType.lowest (t : IntType) : Int :=
  if t.signed then -(2 ^ (t.bits - 1)) else 0

/-- The conversion `static_cast<t>(x)` between integral types: reduction
modulo `2^bits` into the range of `t` (two's complement for a signed `t`). -/
def IntType.cast (t : IntType) (x : Int) : Int :=
  if t.signed then (x + 2 ^ (t.bits - 1)) % 2 ^ t.bits - 2 ^ (t.bits - 1)
  else x % 2 ^ t.bits

/-- The three-parameter `umath::limit<V,U,T>(in)` on integral types
(`umath.h` 291-302): widen to `V`, compare with the bounds of `U` cast to
`V`, narrow to `U`. -/
def limit (V U : IntType) (x : Int) : Int :=
  let lIn := V.cast x
  let max := V.cast U.max
  if lIn > max then U.cast max
  else
    let min := V.cast U.lowest
    if lIn < min then U.cast min
    else U.cast lIn

/-- The integral overload `umath::limit<U,T>(in)` (`umath.h` 304-314), which
delegates to `limit<long long,U,T>`. -/
def limit_integral (U : IntType) (x : Int) : Int := limit .LongLong U x

/-! ### Alignment (`umath.h` 218-226) -/

/-- The template `umath::get_aligned_offset<T>` (`umath.h` 218-226).  The
operator `%` is the C++ remainder, which truncates toward zero (`Int.tmod`);
with `alignment == 0` the modulo is undefined and the model returns `none`.
The returned sum is converted to `T`. -/
def get_aligned_offset (T : IntType) (baseOffset alignment : Int) : Option Int :=
  if alignment = 0 then none
  else
    let r := Int.tmod baseOffset alignment
    if r = 0 then some baseOffset
    else some (T.cast (baseOffset + alignment - r))

/-! ### Powers of two (`umath.cpp` 144-188) -/

/-- The loop `while(v) { v >>= 1; powerOf2 <<= 1; }` that `next_power_of_2`
and `previous_power_of_2` both contain, on 64-bit registers; the result is
the final `(v, powerOf2)`. -/
def pow2_loop : Nat → Nat → Nat → Nat × Nat
  | 0, v, powerOf2 => (v, powerOf2)
  | fuel + 1, v, powerOf2 =>
    if v ≠ 0 then pow2_loop fuel (v >>> 1) ((powerOf2 <<< 1) % 2 ^ 64)
    else (v, powerOf2)

/-- The function `umath::next_power_of_2` (`umath.cpp` 144-156). -/
def next_power_of_2 (v : Nat) : Nat :=
  if v > 0 then (pow2_loop 64 v 1).2 else 1

/-- The function `umath::previous_power_of_2` (`umath.cpp` 158-172). -/
def previous_power_of_2 (v : Nat) : Nat :=
  if v > 1 then (pow2_loop 64 (v - 1) 1).2 >>> 1 else 1

/-- The loop of `get_power_of_2_values` (`umath.cpp` 178-186); the result is
the final `(v, next, values)`.  The complement `~next` of a 64-bit value is
`2^64 - 1 - next`. -/
def values_loop : Nat → Nat → Nat → List Nat → Nat × Nat × List Nat
  | 0, v, next, values => (v, next, values)
  | fuel + 1, v, next, values =>
    if v > 0 ∧ next > 0 then
      if v &&& next ≠ 0 then
        values_loop fuel (v &&& (2 ^ 64 - 1 - next)) (next / 2) (values ++ [next])
      else values_loop fuel v (next / 2) values
    else (v, next, values)

/-- The function `umath::get_power_of_2_values` (`umath.cpp` 174-188). -/
def get_power_of_2_values (v : Nat) : List Nat :=
  (values_loop 64 v (next_power_of_2 v / 2) []).2.2

/-! ### Highest set bit (`umath.cpp` 225-258)

Right shifts and ors of a `w`-bit value stay below `2^w` and
`n - (n >> 1)` never borrows, so only the returned value is reduced. -/

/-- The overload `umath::get_highest_bit(UInt8)` (`umath.cpp` 225-231). -/
def get_highest_bit_u8 (n : Nat) : Nat :=
  let n := n ||| (n >>> 1)
  let n := n ||| (n >>> 2)
  let n := n ||| (n >>> 4)
  (n - (n >>> 1)) % 2 ^ 8

/-- The overload `umath::get_highest_bit(UInt16)` (`umath.cpp` 232-239). -/
def get_highest_bit_u16 (n : Nat) : Nat :=
  let n := n ||| (n >>> 1)
  let n := n ||| (n >>> 2)
  let n := n ||| (n >>> 4)
  let n := n ||| (n >>> 8)
  (n - (n >>> 1)) % 2 ^ 16

/-- The overload `umath::get_highest_bit(UInt32)` (`umath.cpp` 240-248). -/
def get_highest_bit_u32 (n : Nat) : Nat :=
  let n := n ||| (n >>> 1)
  let n := n ||| (n >>> 2)
  let n := n ||| (n >>> 4)
  let n := n ||| (n >>> 8)
  let n := n ||| (n >>> 16)
  (n - (n >>> 1)) % 2 ^ 32

/-- The overload `umath::get_highest_bit(UInt64)` (`umath.cpp` 249-258). -/
def get_highest_bit_u64 (n : Nat) : Nat :=
  let n := n ||| (n >>> 1)
  let n := n ||| (n >>> 2)
  let n := n ||| (n >>> 4)
  let n := n ||| (n >>> 8)
  let n := n ||| (n >>> 16)
  let n := n ||| (n >>> 32)
  (n - (n >>> 1)) % 2 ^ 64

/-- Proof invariant of the bit smear: `x` is below `2^(k+1)` and its `j`
bits from position `k` downward are all set. -/
def Smeared (k j x : Nat) : Prop :=
  x < 2 ^ (k + 1) ∧ ∀ i, i ≤ k → k < i + j → x.testBit i = true

/-! ### Rounding to a floating-point format -/

/-- The halvings of `n` until it is zero, at most `fuel` of them. -/
def bit_length_aux : Nat → Nat → Nat
  | 0, _ => 0
  | fuel + 1, n => if n = 0 then 0 else bit_length_aux fuel (n / 2) + 1

/-- The number of significant bits of `n`, 0 for `n = 0`; `n` halvings
always suffice. -/
def bit_length (n : Nat) : Nat := bit_length_aux n n

/-- The rounding of a non-negative integer `n` to the nearest value with a
significand of `p` bits, ties to even (the IEEE-754 default): the low `e`
bits beyond the `p` leading ones are dropped and the kept part is incremented
when the dropped part is above half, or is exactly half and the kept part is
odd.  An `n` below `2^p` is returned unchanged. -/
def round_to_bits (p n : Nat) : Nat :=
  let e := bit_length n - p
  let q := n / 2 ^ e
  let r := n % 2 ^ e
  if 2 * r > 2 ^ e ∨ (2 * r = 2 ^ e ∧ q % 2 = 1) then (q + 1) * 2 ^ e else q * 2 ^ e

/-- The macro `CFloat(i)`, `static_cast<Float>(i)` (`umath.h` 40), on an
unsigned 32-bit integer: binary32 has a 24-bit significand. -/
def CFloat (i : Nat) : ℚ := (round_to_bits 24 i : ℚ)

/-- The rounding to `Double` of an integer result: binary64 has a 53-bit
significand.  An integer rounds to an integer, so a loop that adds or
subtracts 360 from an integer-valued `Double` can be followed on integers. -/
def round_double (z : Int) : Int :=
  if z < 0 then -(round_to_bits 53 z.natAbs : Int) else (round_to_bits 53 z.natAbs : Int)

/-! ### Angles (`umath.cpp` 12, 44-61, 114-117), over exact rationals -/

/-- The C library function `fmod(x, y)` read exactly: `x - n * y` with `n`
the quotient `x / y` truncated toward zero, so that the result has the sign
of `x` and magnitude below that of `y`. -/
def fmod (x y : ℚ) : ℚ :=
  x - (if 0 ≤ x / y then ⌊x / y⌋ else ⌈x / y⌉) * y

/-- The macro `#define SMODF(a,n) fmod((fmod(a,n) +n),n)` (`umath.cpp` 12). -/
def SMODF (a n : ℚ) : ℚ := fmod (fmod a n + n) n

/-- The function `umath::get_angle_difference` (`umath.cpp` 114-117):
`SMODF((angB -angA) +180.f,360.f) -180.f`. -/
def get_angle_difference (angA angB : ℚ) : ℚ :=
  SMODF ((angB - angA) + 180) 360 - 180

/-- The loop `while(ang > max) ang -= 360;` of `normalize_angle`, in exact
arithmetic: every subtraction is exact, which is what makes the recursion
well founded.  The same loop with the subtraction rounded to `Double` is
`normalize_down_double`. -/
def normalize_down (max ang : ℚ) : ℚ :=
  if ang > max then normalize_down max (ang - 360) else ang
termination_by (⌈(ang - max) / 360⌉).toNat
decreasing_by
  have h1 : (ang - 360 - max) / 360 = (ang - max) / 360 - 1 := by ring
  have h2 : 0 < (ang - max) / 360 := by
    apply div_pos <;> linarith
  have h3 : 0 < ⌈(ang - max) / 360⌉ := Int.ceil_pos.mpr h2
  rw [h1, Int.ceil_sub_one]
  omega

/-- The loop `while(ang <= base) ang += 360;` of `normalize_angle`, in exact
arithmetic: every addition is exact, which is what makes the recursion well
founded.  The same loop with the addition rounded to `Double` is
`normalize_up_double`. -/
def normalize_up (base ang : ℚ) : ℚ :=
  if ang ≤ base then normalize_up base (ang + 360) else ang
termination_by (⌊(base - ang) / 360⌋ + 1).toNat
decreasing_by
  have h1 : (base - (ang + 360)) / 360 = (base - ang) / 360 - 1 := by ring
  have h2 : 0 ≤ (base - ang) / 360 := by
    apply div_nonneg <;> linarith
  have h3 : 0 ≤ ⌊(base - ang) / 360⌋ := Int.floor_nonneg.mpr h2
  rw [h1, Int.floor_sub_one]
  omega

/-- The overload `umath::normalize_angle(Double ang,Double base)`
(`umath.cpp` 44-52). -/
def normalize_angle_base (ang base : ℚ) : ℚ :=
  let max := base + 360
  normalize_up base (normalize_down max ang)

/-- The overload `umath::normalize_angle(Double ang)` (`umath.cpp` 54-61). -/
def normalize_angle (ang : ℚ) : ℚ :=
  normalize_up (-180) (normalize_down 180 ang)

/-- The loop `while(ang > max) ang -= 360;` of `normalize_angle` on an
integer-valued `Double`, each difference rounded to `Double`; `none` when the
loop has not exited within the fuel. -/
def normalize_down_double : Nat → Int → Int → Option Int
  | 0, _, _ => none
  | fuel + 1, max, ang =>
    if ang > max then normalize_down_double fuel max (round_double (ang - 360))
    else some ang

/-- The loop `while(ang <= base) ang += 360;` of `normalize_angle` on an
integer-valued `Double`, each sum rounded to `Double`; `none` when the loop
has not exited within the fuel. -/
def normalize_up_double : Nat → Int → Int → Option Int
  | 0, _, _ => none
  | fuel + 1, base, ang =>
    if ang ≤ base then normalize_up_double fuel base (round_double (ang + 360))
    else some ang

/-- The overload `umath::normalize_angle(Double ang,Double base)`
(`umath.cpp` 44-52) on integer-valued doubles, with `Double` rounding; `none`
when a loop has not exited within the fuel. -/
def normalize_angle_base_double (fuel : Nat) (ang base : Int) : Option Int :=
  let max := round_double (base + 360)
  match normalize_down_double fuel max ang with
  | none => none
  | some a => normalize_up_double fuel base a

/-- The overload `umath::normalize_angle(Double ang)` (`umath.cpp` 54-61) on
integer-valued doubles, with `Double` rounding; `none` when a loop has not
exited within the fuel. -/
def normalize_angle_double (fuel : Nat) (ang : Int) : Option Int :=
  match normalize_down_double fuel 180 ang with
  | none => none
  | some a => normalize_up_double fuel (-180) a

/-- The template `umath::abs<T>` (`umath.h` 202-206) at `T = Double`. -/
def abs (v : ℚ) : ℚ := if v < 0 then -v else v

/-- The function `umath::approach_angle` (`umath.cpp` 118-126). -/
def approach_angle (angA angB amount : ℚ) : ℚ :=
  let diff := get_angle_difference angA angB
  let diff := if diff > amount then amount else if diff < -amount then -amount else diff
  angA + diff

/-- The function `umath::lerp_angle` (`umath.cpp` 92-96). -/
def lerp_angle (angA angB amount : ℚ) : ℚ :=
  let amount := get_angle_difference angA angB * amount
  approach_angle angA angB amount

/-- The function `umath::clamp_angle` (`umath.cpp` 97-107); `abs` is
`umath::abs`. -/
def clamp_angle (ang min max : ℚ) : ℚ :=
  let nMin := normalize_angle (min - ang)
  let nMax := normalize_angle (max - ang)
  if nMin ≤ 0 ∧ nMax ≥ 0 then ang
  else if umath.abs nMin < umath.abs nMax then min
  else max

/-- The function `umath::is_angle_in_range` (`umath.cpp` 108-113). -/
def is_angle_in_range (ang min max : ℚ) : Bool :=
  let nMin := normalize_angle (min - ang)
  let nMax := normalize_angle (max - ang)
  if nMin ≤ 0 ∧ nMax ≥ 0 then true else false

/-! ### Grid snapping (`umath.cpp` 208-223) -/

/-- The conversion `static_cast<Int32>(x)` of a floating value read exactly:
the fractional part is discarded (truncation toward zero); the integer is
then reduced into `Int32` by the caller. -/
def float_to_int (x : ℚ) : Int := if 0 ≤ x then ⌊x⌋ else ⌈x⌉

/-- The overload `umath::sign(Float f)` (`umath.cpp` 209). -/
def sign (f : ℚ) : Int := if f ≥ 0 then 1 else -1

/-- The function `umath::snap_to_grid` (`umath.cpp` 211-223).  The local
`r` is an `Int32` and `gridSize` a `UInt32`, so `r % gridSize`, `r -= d` and
`r += gridSize - d` are evaluated in `UInt32` and stored back into `r`; the
comparison `d < CFloat(gridSize) * 0.5f` is made in binary32, so both `d`
and `gridSize` are rounded by `CFloat`; the halving is exact. -/
def snap_to_grid (f : ℚ) (gridSize : Nat) : Int :=
  if gridSize = 0 then 0
  else
    let s := sign f
    let r := IntType.Int32.cast (float_to_int (f * s))
    let d := IntType.UInt32.cast r % gridSize
    let r :=
      if CFloat d.toNat < CFloat gridSize * (1 / 2) then
        IntType.Int32.cast (IntType.UInt32.cast (IntType.UInt32.cast r - d))
      else
        IntType.Int32.cast
          (IntType.UInt32.cast (IntType.UInt32.cast r + IntType.UInt32.cast (gridSize - d)))
    IntType.Int32.cast (r * s)

/-! ### Greatest common divisor and least common multiple (`umath.h` 362-380) -/

/-- The C++ operator `%` on non-negative integers, with its failure made
explicit: a zero divisor is undefined behaviour and gives `none`. -/
def mod_checked (x y : Nat) : Option Nat := if y = 0 then none else some (x % y)

/-- The C++ operator `/` on non-negative integers, with its failure made
explicit: a zero divisor is undefined behaviour and gives `none`. -/
def div_checked (x y : Nat) : Option Nat := if y = 0 then none else some (x / y)

set_option linter.unusedVariables false in
/-- The template `umath::get_greatest_common_divisor<T>` (`umath.h` 362-374)
on non-negative values: the `for (;;)` loop as a recursion on `a`, which
decreases in every iteration.  The result is `none` exactly when an
iteration evaluates a modulo by zero. -/
def get_greatest_common_divisor (a b : Nat) : Option Nat :=
  if ha0 : a = 0 then some b
  else
    match hb : mod_checked b a with
    | none => none
    | some b1 =>
      if hb0 : b1 = 0 then some a
      else
        match ha : mod_checked a b1 with
        | none => none
        | some a1 => get_greatest_common_divisor a1 b1
termination_by a
decreasing_by
  simp only [mod_checked, if_neg ha0, if_neg hb0, Option.some.injEq] at hb ha
  subst hb ha
  exact lt_trans (Nat.mod_lt _ (Nat.pos_of_ne_zero hb0)) (Nat.mod_lt _ (Nat.pos_of_ne_zero ha0))

/-- The template `umath::get_least_common_multiple<T>` (`umath.h` 375-380)
on non-negative values: `temp ? (a / temp * b) : 0`, the product converted to
the return type `T`. -/
def get_least_common_multiple (T : IntType) (a b : Nat) : Option Int :=
  match get_greatest_common_divisor a b with
  | none => none
  | some temp =>
    if temp ≠ 0 then
      match div_checked a temp with
      | none => none
      | some q => some (T.cast ((q : Int) * b))
    else some 0

/-! ### Half-precision codec (`umath.cpp` 264-265)

The two functions of `umath.cpp` delegate to `Float16Compressor`, whose
header `mathutil/umath_float16_compressor.h` is not among the sources.  A
`float` is represented by its binary32 bit pattern and a half by its
binary16 bit pattern, both as natural numbers. -/

/-- Modelled from the spec: `Float16Compressor::decompress`, the binary16
decoder of `umath_float16_compressor.h`.  It extracts sign, 5-bit exponent and
10-bit mantissa and re-biases the exponent from 15 to 127: zero stays zero, a
subnormal is normalised, infinity and NaN (exponent 31) pass through with
exponent 255, and a normal value keeps its mantissa in the top 10 of the 23
mantissa bits. -/
def Float16Compressor.decompress (v : Nat) : Nat :=
  let sign := v / 2 ^ 15 % 2
  let e := v / 2 ^ 10 % 2 ^ 5
  let m := v % 2 ^ 10
  if e = 0 then
    if m = 0 then sign * 2 ^ 31
    else
      let p := Nat.log2 m
      sign * 2 ^ 31 + (103 + p) * 2 ^ 23 + (m * 2 ^ (23 - p)) % 2 ^ 23
  else if e = 31 then sign * 2 ^ 31 + 255 * 2 ^ 23 + m * 2 ^ 13
  else sign * 2 ^ 31 + (e + 112) * 2 ^ 23 + m * 2 ^ 13

/-- Modelled from the spec: `Float16Compressor::compress`, the binary16
encoder of `umath_float16_compressor.h`.  It extracts sign, 8-bit exponent and
23-bit mantissa and re-biases the exponent from 127 to 15: infinity passes
through and NaN stays NaN, a value above the binary16 range is clamped to
infinity, a value in the normal range keeps the top 10 mantissa bits, a value
in the subnormal range is shifted into a subnormal, and a smaller one is
flushed to zero.  The spec fixes no rounding of the discarded mantissa bits;
they are dropped. -/
def Float16Compressor.compress (f : Nat) : Nat :=
  let sign := f / 2 ^ 31 % 2
  let e := f / 2 ^ 23 % 2 ^ 8
  let m := f % 2 ^ 23
  if e = 255 then
    if m = 0 then sign * 2 ^ 15 + 31 * 2 ^ 10
    else sign * 2 ^ 15 + 31 * 2 ^ 10 + Nat.max 1 (m / 2 ^ 13)
  else if e > 142 then sign * 2 ^ 15 + 31 * 2 ^ 10
  else if e ≥ 113 then sign * 2 ^ 15 + (e - 112) * 2 ^ 10 + m / 2 ^ 13
  else if e ≥ 103 then sign * 2 ^ 15 + (2 ^ 23 + m) / 2 ^ (126 - e)
  else sign * 2 ^ 15

/-- The function `umath::float32_to_float16` (`umath.cpp` 264). -/
def float32_to_float16 (f : Nat) : Nat := Float16Compressor.compress f

/-- The function `umath::float16_to_float32` (`umath.cpp` 265). -/
def float16_to_float32 (v : Nat) : Nat := Float16Compressor.decompress v

/-! ## Theorems -/

/-! ### Saturating conversion -/

theorem IntType.two_pow_bits (t : IntType) (h : 0 < t.bits) :
    (2 : Int) ^ t.bits = 2 * 2 ^ (t.bits - 1) := by
  obtain ⟨k, hk⟩ : ∃ k, t.bits = k + 1 := ⟨t.bits - 1, by omega⟩
  rw [hk, pow_succ]; simp; ring

/-- A conversion to `t` leaves a value in the range of `t` unchanged. -/
theorem IntType.cast_eq_self (t : IntType) (h : 0 < t.bits) (x : Int)
    (hlo : t.lowest ≤ x) (hhi : x ≤ t.max) : t.cast x = x := by
  have h2 := t.two_pow_bits h
  have hp : (0 : Int) < 2 ^ (t.bits - 1) := by positivity
  unfold IntType.cast
  unfold IntType.lowest at hlo
  unfold IntType.max at hhi
  split_ifs with hs
  · simp only [hs, if_true] at hlo hhi
    rw [Int.emod_eq_of_lt (by omega) (by omega)]; omega
  · simp only [hs] at hlo hhi
    exact Int.emod_eq_of_lt (by simpa using hlo) (by simp at hhi; omega)

theorem IntType.lowest_le_max (t : IntType) : t.lowest ≤ t.max := by
  have hp : (0 : Int) < 2 ^ (t.bits - 1) := by positivity
  have hq : (0 : Int) < 2 ^ t.bits := by positivity
  unfold IntType.lowest IntType.max
  split_ifs <;> omega

/-- A type of fewer than 64 bits has its whole range inside `long long`. -/
theorem IntType.range_of_bits_lt (t : IntType) (h : t.bits < 64) :
    -(2 : Int) ^ 63 ≤ t.lowest ∧ t.max < 2 ^ 63 := by
  have h1 : (2 : Int) ^ t.bits ≤ 2 ^ 63 :=
    pow_le_pow_right₀ (by norm_num) (by omega)
  have h2 : (2 : Int) ^ (t.bits - 1) ≤ 2 ^ 63 :=
    pow_le_pow_right₀ (by norm_num) (by omega)
  have hp : (0 : Int) < 2 ^ (t.bits - 1) := by positivity
  have hq : (0 : Int) < 2 ^ t.bits := by positivity
  unfold IntType.lowest IntType.max
  split_ifs <;> constructor <;> omega

theorem IntType.cast_LongLong (x : Int) (hlo : -(2 : Int) ^ 63 ≤ x) (hhi : x < 2 ^ 63) :
    IntType.LongLong.cast x = x := by
  apply IntType.cast_eq_self _ (by decide)
  · simpa [IntType.lowest, IntType.LongLong] using hlo
  · simp [IntType.max, IntType.LongLong]; omega

/-- The integral `limit` is a clamp, for any source value that `long long`
holds and any destination of fewer than 64 bits. -/
theorem limit_integral_spec (U : IntType) (h0 : 0 < U.bits) (h64 : U.bits < 64)
    (v : Int) (hlo : -(2 : Int) ^ 63 ≤ v) (hhi : v < 2 ^ 63) :
    limit_integral U v =
      if U.max < v then U.max else if v < U.lowest then U.lowest else v := by
  obtain ⟨hl, hm⟩ := U.range_of_bits_lt h64
  have hlm := U.lowest_le_max
  unfold limit_integral limit
  simp only []
  rw [IntType.cast_LongLong v hlo hhi, IntType.cast_LongLong U.max (by omega) hm,
    IntType.cast_LongLong U.lowest hl (by omega)]
  split_ifs with h1 h2
  · exact U.cast_eq_self h0 _ hlm le_rfl
  · exact U.cast_eq_self h0 _ le_rfl hlm
  · exact U.cast_eq_self h0 _ (by omega) (by omega)

/-- Claim C1: for source and destination types of at most 32 bits and every
value `v` of the source type, `limit<U>(v)` lies in `[U::MIN, U::MAX]`, equals
`v` when `v` is representable in `U`, `U::MAX` when `v > U::MAX` and `U::MIN`
when `v < U::MIN`; with the examples `limit<Int8>(300) == 127`,
`limit<Int8>(-300) == -128` and `limit<UInt8>(-1) == 0`. -/
theorem limit_integral_saturates (T U : IntType) (hT : T ∈ narrowTypes)
    (hU : U ∈ narrowTypes) (v : Int) (hlo : T.lowest ≤ v) (hhi : v ≤ T.max) :
    U.lowest ≤ limit_integral U v ∧ limit_integral U v ≤ U.max ∧
    (U.lowest ≤ v → v ≤ U.max → limit_integral U v = v) ∧
    (U.max < v → limit_integral U v = U.max) ∧
    (v < U.lowest → limit_integral U v = U.lowest) ∧
    limit_integral .Int8 300 = 127 ∧ limit_integral .Int8 (-300) = -128 ∧
    limit_integral .UInt8 (-1) = 0 := by
  have hTb : T.bits < 64 := by
    simp only [narrowTypes, List.mem_cons, List.mem_singleton, List.not_mem_nil,
      or_false] at hT
    rcases hT with rfl | rfl | rfl | rfl | rfl | rfl <;> decide
  have hUb : 0 < U.bits ∧ U.bits < 64 := by
    simp only [narrowTypes, List.mem_cons, List.mem_singleton, List.not_mem_nil,
      or_false] at hU
    rcases hU with rfl | rfl | rfl | rfl | rfl | rfl <;> decide
  obtain ⟨hl, hm⟩ := T.range_of_bits_lt hTb
  have hlm := U.lowest_le_max
  rw [limit_integral_spec U hUb.1 hUb.2 v (by omega) (by omega)]
  refine ⟨?_, ?_, ?_, ?_, ?_, by decide, by decide, by decide⟩
  · split_ifs <;> omega
  · split_ifs <;> omega
  · intro h1 h2; rw [if_neg (by omega), if_neg (by omega)]
  · intro h1; rw [if_pos h1]
  · intro h1; rw [if_neg (by omega), if_pos h1]

/-- Witness of C1 at `limit<Int8>(Int16(300))`: the source bounds hold and
the result is `Int8::MAX`. -/
theorem limit_integral_saturates_witness :
    IntType.lowest .Int16 ≤ 300 ∧ (300 : Int) ≤ IntType.max .Int16 ∧
    limit_integral .Int8 300 = IntType.max .Int8 :=
  ⟨by decide, by decide,
   (limit_integral_saturates .Int16 .Int8 (by decide) (by decide) 300 (by decide)
      (by decide)).2.2.2.1 (by decide)⟩

/-! ### Alignment -/

/-- For a non-negative base and a positive alignment whose sum
`base + alignment` fits in `T` (so that no step of `base + alignment - r`
overflows), the result is the least multiple of the alignment that is at
least the base, and it is the base itself when that is aligned. -/
theorem get_aligned_offset_nonneg (T : IntType) (hT : 0 < T.bits) (base alignment : Int)
    (hb : 0 ≤ base) (ha : 0 < alignment) (hsum : base + alignment ≤ T.max) :
    ∃ r, get_aligned_offset T base alignment = some r ∧ alignment ∣ r ∧ base ≤ r ∧
      (∀ m, alignment ∣ m → base ≤ m → r ≤ m) ∧ (alignment ∣ base → r = base) := by
  have hmod : Int.tmod base alignment = base % alignment := Int.tmod_eq_emod hb ha.le
  have h0 : 0 ≤ base % alignment := Int.emod_nonneg _ (by omega)
  have h1 : base % alignment < alignment := Int.emod_lt_of_pos _ ha
  have hlow : T.lowest ≤ 0 := by
    have hp : (0 : Int) < 2 ^ (T.bits - 1) := by positivity
    unfold IntType.lowest
    split_ifs <;> omega
  have hfit : T.lowest ≤ base + alignment - base % alignment ∧
      base + alignment - base % alignment ≤ T.max := ⟨by omega, by omega⟩
  have hdiv := Int.emod_add_ediv base alignment
  unfold get_aligned_offset
  rw [if_neg (by omega)]
  simp only [hmod]
  by_cases hr : base % alignment = 0
  · rw [if_pos hr]
    exact ⟨base, rfl, Int.dvd_of_emod_eq_zero hr, le_rfl, fun m _ hm => hm, fun _ => rfl⟩
  · rw [if_neg hr, T.cast_eq_self hT _ hfit.1 hfit.2]
    refine ⟨_, rfl, ?_, by omega, ?_, ?_⟩
    · refine ⟨base / alignment + 1, ?_⟩
      rw [mul_add, mul_one]; omega
    · rintro m ⟨c, rfl⟩ hm
      have hc : base / alignment < c := by
        by_contra hcon
        have : alignment * c ≤ alignment * (base / alignment) :=
          Int.mul_le_mul_of_nonneg_left (not_lt.mp hcon) ha.le
        omega
      have : alignment * (base / alignment + 1) ≤ alignment * c :=
        Int.mul_le_mul_of_nonneg_left hc ha.le
      rw [mul_add, mul_one] at this
      omega
    · intro hd
      exact absurd (Int.emod_eq_zero_of_dvd hd) hr

/-- Claim C7, evaluated where it fails: `get_aligned_offset<Int32>(-3, 4)`
returns 4, although 0 is a multiple of 4 with `-3 <= 0 < 4`; the C++
remainder of a negative base is negative, and subtracting it overshoots the
least multiple by one alignment step. -/
theorem get_aligned_offset_negative_base :
    get_aligned_offset .Int32 (-3) 4 = some 4 ∧
    ((4 : Int) ∣ 0 ∧ (-3 : Int) ≤ 0 ∧ (0 : Int) < 4) := by
  decide

/-! ### Powers of two -/

/-- The shift loop, run from `(v, p)` with enough fuel for `v`, ends with
`v == 0` and `powerOf2 == p * 2^k mod 2^64`, where `k` is the least exponent
with `v < 2^k`. -/
theorem pow2_loop_spec (fuel : Nat) : ∀ v p : Nat, v < 2 ^ fuel → p < 2 ^ 64 →
    ∃ k, k ≤ fuel ∧ v < 2 ^ k ∧ (∀ j, v < 2 ^ j → k ≤ j) ∧
      pow2_loop fuel v p = (0, p * 2 ^ k % 2 ^ 64) := by
  induction fuel with
  | zero =>
    intro v p hv hp
    refine ⟨0, le_rfl, hv, fun j _ => Nat.zero_le j, ?_⟩
    have : v = 0 := by simpa using hv
    simp only [pow2_loop, this, pow_zero, mul_one, Nat.mod_eq_of_lt hp]
  | succ f ih =>
    intro v p hv hp
    by_cases h0 : v = 0
    · subst h0
      exact ⟨0, Nat.zero_le _, by simp, fun j _ => Nat.zero_le j,
        by simp only [pow2_loop, ne_eq, not_true_eq_false, if_false, pow_zero, mul_one,
          Nat.mod_eq_of_lt hp]⟩
    · have hv2 : v >>> 1 < 2 ^ f := by
        rw [Nat.shiftRight_eq_div_pow, pow_one]; rw [pow_succ] at hv; omega
      obtain ⟨k, hk, hlt, hmin, heq⟩ :=
        ih (v >>> 1) ((p <<< 1) % 2 ^ 64) hv2 (Nat.mod_lt _ (by positivity))
      rw [Nat.shiftRight_eq_div_pow, pow_one] at hlt hmin
      refine ⟨k + 1, by omega, by rw [pow_succ]; omega, ?_, ?_⟩
      · intro j hj
        cases j with
        | zero => simp at hj; omega
        | succ j =>
          have := hmin j (by rw [pow_succ] at hj; omega)
          omega
      · rw [pow2_loop, if_pos h0, heq, Nat.shiftLeft_eq, pow_one, Nat.mod_mul_mod,
          pow_succ]
        congr 2; ring

/-- The shift loop reaches its exit condition `v == 0` within 64 iterations
on every 64-bit input. -/
theorem pow2_loop_exits (v p : Nat) (hv : v < 2 ^ 64) (hp : p < 2 ^ 64) :
    (pow2_loop 64 v p).1 = 0 := by
  obtain ⟨k, -, -, -, heq⟩ := pow2_loop_spec 64 v p hv hp
  rw [heq]

/-- What `next_power_of_2` computes on any 64-bit input: `2^k` reduced modulo
`2^64`, for the least `k` with `v < 2^k`. -/
theorem next_power_of_2_eq (v : Nat) (hv : v < 2 ^ 64) :
    ∃ k, k ≤ 64 ∧ v < 2 ^ k ∧ (∀ j, v < 2 ^ j → k ≤ j) ∧
      next_power_of_2 v = 2 ^ k % 2 ^ 64 := by
  unfold next_power_of_2
  split_ifs with h
  · obtain ⟨k, hk, hlt, hmin, heq⟩ := pow2_loop_spec 64 v 1 hv (by norm_num)
    exact ⟨k, hk, hlt, hmin, by rw [heq, one_mul]⟩
  · have : v = 0 := by omega
    subst this
    exact ⟨0, by omega, by simp, fun j _ => Nat.zero_le j, by norm_num⟩

/-- Claim C2 fails as stated: `next_power_of_2(4)` is 8 although `4 = 2^2`
is itself a power of two `>= 4`; and `next_power_of_2(2^63)` is 0, which is
below its argument. -/
theorem next_power_of_2_not_least_ge :
    next_power_of_2 4 = 8 ∧ (4 ≤ 2 ^ 2 ∧ 2 ^ 2 < next_power_of_2 4) ∧
    next_power_of_2 (2 ^ 63) = 0 ∧ next_power_of_2 (2 ^ 63) < 2 ^ 63 := by
  decide

/-- Claim C2, amended: for every `v < 2^63`, `next_power_of_2(v)` is the
smallest power of two strictly greater than `v`; it is 1 for `v = 0`. -/
theorem next_power_of_2_strict (v : Nat) (hv : v < 2 ^ 63) :
    (∃ k, next_power_of_2 v = 2 ^ k) ∧ v < next_power_of_2 v ∧
    (∀ k, v < 2 ^ k → next_power_of_2 v ≤ 2 ^ k) ∧
    next_power_of_2 0 = 1 := by
  obtain ⟨k, hk, hlt, hmin, heq⟩ := next_power_of_2_eq v (by omega)
  have hk63 : k ≤ 63 := hmin 63 hv
  have hlt64 : 2 ^ k < 2 ^ 64 := Nat.pow_lt_pow_right (by norm_num) (by omega)
  rw [Nat.mod_eq_of_lt hlt64] at heq
  rw [heq]
  exact ⟨⟨k, rfl⟩, hlt, fun j hj => Nat.pow_le_pow_right (by norm_num) (hmin j hj),
    by decide⟩

/-- Witness of the amended C2 at `v = 4`, a power of two. -/
theorem next_power_of_2_strict_witness :
    4 < 2 ^ 63 ∧ (∃ k, next_power_of_2 4 = 2 ^ k) ∧ 4 < next_power_of_2 4 ∧
    (∀ k, 4 < 2 ^ k → next_power_of_2 4 ≤ 2 ^ k) ∧ next_power_of_2 0 = 1 :=
  ⟨by norm_num, next_power_of_2_strict 4 (by norm_num)⟩

/-- Claim C3 fails as stated: `previous_power_of_2(4)` is 2 although
`4 = 2^2` is itself a power of two `<= 4`; and `previous_power_of_2(2^63 + 1)`
is 0. -/
theorem previous_power_of_2_not_greatest_le :
    previous_power_of_2 4 = 2 ∧ (2 ^ 2 ≤ 4 ∧ previous_power_of_2 4 < 2 ^ 2) ∧
    previous_power_of_2 (2 ^ 63 + 1) = 0 := by
  decide

/-- Claim C3, amended: for every `v` with `1 < v <= 2^63`,
`previous_power_of_2(v)` is the largest power of two strictly less than `v`;
for `v <= 1` it returns 1. -/
theorem previous_power_of_2_strict (v : Nat) :
    (v ≤ 1 → previous_power_of_2 v = 1) ∧
    (1 < v → v ≤ 2 ^ 63 →
      (∃ k, previous_power_of_2 v = 2 ^ k) ∧ previous_power_of_2 v < v ∧
      (∀ k, 2 ^ k < v → 2 ^ k ≤ previous_power_of_2 v)) := by
  constructor
  · intro h
    simp [previous_power_of_2, Nat.not_lt.mpr h]
  · intro h1 h63
    obtain ⟨k, hk, hlt, hmin, heq⟩ :=
      pow2_loop_spec 64 (v - 1) 1 (by omega) (by norm_num)
    have hk63 : k ≤ 63 := hmin 63 (by omega)
    have hlt64 : 2 ^ k < 2 ^ 64 := Nat.pow_lt_pow_right (by norm_num) (by omega)
    have hk0 : k ≠ 0 := by
      rintro rfl
      simp at hlt; omega
    obtain ⟨m, rfl⟩ : ∃ m, k = m + 1 := ⟨k - 1, by omega⟩
    have hval : previous_power_of_2 v = 2 ^ m := by
      simp only [previous_power_of_2, if_pos h1, heq, one_mul, Nat.mod_eq_of_lt hlt64,
        Nat.shiftRight_eq_div_pow, pow_one, pow_succ]
      omega
    rw [hval]
    refine ⟨⟨m, rfl⟩, ?_, ?_⟩
    · by_contra hc
      have := hmin m (by omega)
      omega
    · intro j hj
      apply Nat.pow_le_pow_right (by norm_num)
      by_contra hc
      have h2 : 2 ^ (m + 1) ≤ 2 ^ j := Nat.pow_le_pow_right (by norm_num) (by omega)
      omega

/-- Witness of the amended C3 at `v = 1` and at `v = 4`, a power of two. -/
theorem previous_power_of_2_strict_witness :
    previous_power_of_2 1 = 1 ∧
    ((∃ k, previous_power_of_2 4 = 2 ^ k) ∧ previous_power_of_2 4 < 4 ∧
      (∀ k, 2 ^ k < 4 → 2 ^ k ≤ previous_power_of_2 4)) :=
  ⟨(previous_power_of_2_strict 1).1 (by norm_num),
   (previous_power_of_2_strict 4).2 (by norm_num) (by norm_num)⟩

theorem testBit_of_and_two_pow_ne_zero (v j : Nat) (h : v &&& 2 ^ j ≠ 0) :
    v.testBit j = true := by
  by_contra hc
  apply h
  apply Nat.eq_of_testBit_eq
  intro i
  rw [Nat.testBit_and, Nat.testBit_two_pow, Nat.zero_testBit]
  by_cases hij : j = i
  · subst hij; simp [hc]
  · simp [hij]

theorem half_two_pow_or_zero (next : Nat) (h : next = 0 ∨ ∃ j, next = 2 ^ j) :
    next / 2 = 0 ∨ ∃ j, next / 2 = 2 ^ j := by
  rcases h with rfl | ⟨j, rfl⟩
  · left; rfl
  · cases j with
    | zero => left; rfl
    | succ j => right; exact ⟨j, by rw [pow_succ]; omega⟩

/-- The scan of `get_power_of_2_values` reaches its exit condition
(`v == 0` or `next == 0`) within the fuel, when `next < 2^fuel`. -/
theorem values_loop_exits (fuel : Nat) : ∀ v next : Nat, ∀ acc : List Nat,
    next < 2 ^ fuel →
    (values_loop fuel v next acc).1 = 0 ∨ (values_loop fuel v next acc).2.1 = 0 := by
  induction fuel with
  | zero =>
    intro v next acc h
    right
    simpa [values_loop] using h
  | succ f ih =>
    intro v next acc h
    have hhalf : next / 2 < 2 ^ f := by rw [pow_succ] at h; omega
    rw [values_loop]
    split_ifs with hc hb
    · exact ih _ _ _ hhalf
    · exact ih _ _ _ hhalf
    · simp only []
      omega

/-- Every run of the scan appends to `values` a strictly descending list of
powers of two, each at most `next` and each a set bit of `v`. -/
theorem values_loop_spec (fuel : Nat) : ∀ v next : Nat, ∀ acc : List Nat,
    (next = 0 ∨ ∃ j, next = 2 ^ j) →
    ∃ l, (values_loop fuel v next acc).2.2 = acc ++ l ∧
      (∀ x ∈ l, x ≤ next ∧ ∃ j, x = 2 ^ j ∧ v.testBit j = true) ∧
      l.Pairwise (· > ·) := by
  induction fuel with
  | zero =>
    intro v next acc _
    exact ⟨[], by simp [values_loop], by simp, List.Pairwise.nil⟩
  | succ f ih =>
    intro v next acc hnext
    have hhalf := half_two_pow_or_zero next hnext
    by_cases hc : v > 0 ∧ next > 0
    · by_cases hb : v &&& next ≠ 0
      · obtain ⟨j, hj⟩ : ∃ j, next = 2 ^ j := by
          rcases hnext with h | h
          · omega
          · exact h
        have hbit : v.testBit j = true :=
          testBit_of_and_two_pow_ne_zero v j (by rw [← hj]; exact hb)
        obtain ⟨l, hl, hmem, hpw⟩ :=
          ih (v &&& (2 ^ 64 - 1 - next)) (next / 2) (acc ++ [next]) hhalf
        refine ⟨next :: l, ?_, ?_, ?_⟩
        · rw [values_loop, if_pos hc, if_pos hb, hl]; simp
        · intro x hx
          rcases List.mem_cons.mp hx with rfl | hx
          · exact ⟨le_rfl, j, hj, hbit⟩
          · obtain ⟨hle, i, hi, hti⟩ := hmem x hx
            refine ⟨by omega, i, hi, ?_⟩
            rw [Nat.testBit_and, Bool.and_eq_true] at hti
            exact hti.1
        · refine List.Pairwise.cons ?_ hpw
          intro x hx
          have := (hmem x hx).1
          show next > x
          omega
      · obtain ⟨l, hl, hmem, hpw⟩ := ih v (next / 2) acc hhalf
        refine ⟨l, ?_, ?_, hpw⟩
        · rw [values_loop, if_pos hc, if_neg hb, hl]
        · intro x hx
          obtain ⟨hle, i, hi, hti⟩ := hmem x hx
          exact ⟨by omega, i, hi, hti⟩
    · exact ⟨[], by rw [values_loop, if_neg hc]; simp, by simp, List.Pairwise.nil⟩

theorem values_loop_zero (fuel next : Nat) (acc : List Nat) :
    values_loop fuel 0 next acc = (0, next, acc) := by
  cases fuel <;> simp [values_loop]

/-- Clearing a set top bit with the 64-bit complement mask subtracts it. -/
theorem and_not_two_pow (v j : Nat) (hj : j < 64) (hv : v < 2 ^ (j + 1))
    (hbit : v.testBit j = true) : v &&& (2 ^ 64 - 1 - 2 ^ j) = v - 2 ^ j := by
  have hge : 2 ^ j ≤ v := Nat.testBit_implies_ge hbit
  have hlt : 2 ^ j < 2 ^ 64 := Nat.pow_lt_pow_right (by norm_num) hj
  have hmod : v - 2 ^ j = v % 2 ^ j := by
    rw [pow_succ] at hv
    have h1 : v = 2 ^ j + (v - 2 ^ j) := by omega
    have h2 : (v - 2 ^ j) < 2 ^ j := by omega
    conv_rhs => rw [h1, Nat.add_mod_left, Nat.mod_eq_of_lt h2]
  have hmask : 2 ^ 64 - 1 - 2 ^ j = 2 ^ 64 - (2 ^ j + 1) := by omega
  rw [hmod, hmask]
  apply Nat.eq_of_testBit_eq
  intro i
  rw [Nat.testBit_and, Nat.testBit_two_pow_sub_succ hlt, Nat.testBit_mod_two_pow,
    Nat.testBit_two_pow]
  rcases Nat.lt_trichotomy i j with h | h | h
  · have h1 : i < 64 := by omega
    have h2 : ¬ j = i := by omega
    simp [h, h1, h2]
  · subst h; simp
  · have h1 : v.testBit i = false :=
      Nat.testBit_lt_two_pow (lt_of_lt_of_le hv (Nat.pow_le_pow_right (by norm_num) h))
    have h2 : ¬ i < j := by omega
    simp [h1, h2]

/-- Started at a power of two `2^j` with `v < 2^(j+1)`, the scan ends with
`v == 0`, having appended values that sum to `v`. -/
theorem values_loop_sum (fuel : Nat) : ∀ v j : Nat, ∀ acc : List Nat,
    j < fuel → j < 64 → v < 2 ^ (j + 1) →
    (values_loop fuel v (2 ^ j) acc).1 = 0 ∧
    ((values_loop fuel v (2 ^ j) acc).2.2).sum = acc.sum + v := by
  induction fuel with
  | zero => intro v j acc hj; omega
  | succ f ih =>
    intro v j acc hjf hj hv
    have hpos : 0 < 2 ^ j := by positivity
    by_cases hv0 : v = 0
    · subst hv0; simp [values_loop_zero]
    · have hc : v > 0 ∧ 2 ^ j > 0 := ⟨by omega, hpos⟩
      by_cases hb : v &&& 2 ^ j ≠ 0
      · have hbit := testBit_of_and_two_pow_ne_zero v j hb
        have hge : 2 ^ j ≤ v := Nat.testBit_implies_ge hbit
        rw [values_loop, if_pos hc, if_pos hb, and_not_two_pow v j hj hv hbit]
        cases j with
        | zero =>
          have : v = 1 := by simp at hv hge; omega
          subst this
          simp [values_loop_zero]
        | succ i =>
          have hhalf : 2 ^ (i + 1) / 2 = 2 ^ i := by rw [pow_succ]; omega
          rw [hhalf]
          obtain ⟨h1, h2⟩ := ih (v - 2 ^ (i + 1)) i (acc ++ [2 ^ (i + 1)]) (by omega)
            (by omega) (by rw [pow_succ] at hv; omega)
          refine ⟨h1, ?_⟩
          rw [h2]; simp; omega
      · rw [values_loop, if_pos hc, if_neg hb]
        have hbit : v.testBit j = false := by
          by_contra hcon
          apply hb
          intro hz
          have h1 : (v &&& 2 ^ j).testBit j = true := by
            rw [Nat.testBit_and, Nat.testBit_two_pow_self]; simpa using hcon
          rw [hz] at h1; simp at h1
        have hlt : v < 2 ^ j := by
          apply Nat.lt_pow_two_of_testBit
          intro i hi
          rcases Nat.eq_or_lt_of_le hi with h | h
          · rw [← h]; exact hbit
          · exact Nat.testBit_lt_two_pow
              (lt_of_lt_of_le hv (Nat.pow_le_pow_right (by norm_num) h))
        cases j with
        | zero => simp at hlt; omega
        | succ i =>
          have hhalf : 2 ^ (i + 1) / 2 = 2 ^ i := by rw [pow_succ]; omega
          rw [hhalf]
          exact ih v i acc (by omega) (by omega) hlt

/-- Below `2^63` the decomposition sums to its input, and so is empty only
for the input 0. -/
theorem get_power_of_2_values_sum (v : Nat) (hv : v < 2 ^ 63) :
    (get_power_of_2_values v).sum = v ∧ (get_power_of_2_values v = [] ↔ v = 0) := by
  have hsum : (get_power_of_2_values v).sum = v := by
    obtain ⟨k, hk, hlt, hmin, heq⟩ := next_power_of_2_eq v (by omega)
    have hk63 : k ≤ 63 := hmin 63 hv
    have hlt64 : 2 ^ k < 2 ^ 64 := Nat.pow_lt_pow_right (by norm_num) (by omega)
    rw [Nat.mod_eq_of_lt hlt64] at heq
    unfold get_power_of_2_values
    rw [heq]
    cases k with
    | zero =>
      have : v = 0 := by simpa using hlt
      subst this
      simp [values_loop_zero]
    | succ i =>
      have hhalf : 2 ^ (i + 1) / 2 = 2 ^ i := by rw [pow_succ]; omega
      rw [hhalf]
      have := (values_loop_sum 64 v i [] (by omega) (by omega) hlt).2
      simpa using this
  refine ⟨hsum, fun h => ?_, fun h => ?_⟩
  · rw [h] at hsum; simpa using hsum.symm
  · subst h; decide

/-- Claim C4, evaluated where it fails: on `v = 2^63` the starting value
`next_power_of_2(v) / 2` is 0 because `next_power_of_2` has wrapped to 0, the
scan never starts, and the result is empty though `v != 0`; its sum is 0. -/
theorem get_power_of_2_values_bit63 :
    next_power_of_2 (2 ^ 63) = 0 ∧ get_power_of_2_values (2 ^ 63) = [] ∧
    (get_power_of_2_values (2 ^ 63)).sum ≠ 2 ^ 63 := by
  decide

/-- Claim C5: for every 64-bit `v`, every element of
`get_power_of_2_values(v)` is a power of two whose bit is set in `v`, and the
elements are in strictly descending order, hence pairwise distinct. -/
theorem get_power_of_2_values_distinct_bits (v : Nat) (hv : v < 2 ^ 64) :
    (∀ x ∈ get_power_of_2_values v, ∃ j, x = 2 ^ j ∧ v.testBit j = true) ∧
    (get_power_of_2_values v).Pairwise (· > ·) ∧
    (get_power_of_2_values v).Nodup := by
  have hstart : next_power_of_2 v / 2 = 0 ∨ ∃ j, next_power_of_2 v / 2 = 2 ^ j := by
    obtain ⟨k, hk, -, -, heq⟩ := next_power_of_2_eq v hv
    rw [heq]
    rcases Nat.lt_or_ge k 64 with h | h
    · exact half_two_pow_or_zero _ (Or.inr ⟨k, Nat.mod_eq_of_lt
        (Nat.pow_lt_pow_right (by norm_num) h)⟩)
    · have : k = 64 := by omega
      subst this
      left; norm_num
  obtain ⟨l, hl, hmem, hpw⟩ := values_loop_spec 64 v (next_power_of_2 v / 2) [] hstart
  have hval : get_power_of_2_values v = l := by
    rw [get_power_of_2_values, hl, List.nil_append]
  rw [hval]
  refine ⟨fun x hx => (hmem x hx).2, hpw, ?_⟩
  exact hpw.imp (fun h => (Nat.ne_of_gt h))

/-- Witness of C5 at `v = 13`, whose decomposition is `[8, 4, 1]`. -/
theorem get_power_of_2_values_distinct_bits_witness :
    get_power_of_2_values 13 = [8, 4, 1] ∧
    (∀ x ∈ get_power_of_2_values 13, ∃ j, x = 2 ^ j ∧ Nat.testBit 13 j = true) ∧
    (get_power_of_2_values 13).Pairwise (· > ·) ∧
    (get_power_of_2_values 13).Nodup :=
  ⟨by decide, get_power_of_2_values_distinct_bits 13 (by norm_num)⟩

/-! ### Highest set bit -/

/-- A non-zero `n` has a highest set bit `k`, which alone is smeared length 1. -/
theorem smeared_init (n : Nat) (h : n ≠ 0) :
    ∃ k, 2 ^ k ≤ n ∧ n < 2 ^ (k + 1) ∧ Smeared k 1 n := by
  refine ⟨Nat.log 2 n, Nat.pow_log_le_self 2 h, Nat.lt_pow_succ_log_self (by norm_num) n,
    Nat.lt_pow_succ_log_self (by norm_num) n, ?_⟩
  intro i hi hk
  have : i = Nat.log 2 n := by omega
  subst this
  by_contra hc
  have hlt : n < 2 ^ Nat.log 2 n := by
    apply Nat.lt_pow_two_of_testBit
    intro i hi
    rcases Nat.eq_or_lt_of_le hi with h | h
    · rw [← h]; simpa using hc
    · exact Nat.testBit_lt_two_pow
        (lt_of_lt_of_le (Nat.lt_pow_succ_log_self (by norm_num) n)
          (Nat.pow_le_pow_right (by norm_num) h))
  exact absurd (Nat.pow_log_le_self 2 h) (by omega)

/-- One smear stage `n |= n >> s` with `s` at most the smeared length adds
`s` to the smeared length. -/
theorem smeared_step (k j s x : Nat) (hs : s ≤ j) (h : Smeared k j x) :
    Smeared k (j + s) (x ||| (x >>> s)) := by
  obtain ⟨hlt, hbits⟩ := h
  refine ⟨Nat.or_lt_two_pow hlt ?_, ?_⟩
  · rw [Nat.shiftRight_eq_div_pow]
    exact lt_of_le_of_lt (Nat.div_le_self _ _) hlt
  · intro i hi hk
    rw [Nat.testBit_or, Nat.testBit_shiftRight, Bool.or_eq_true]
    by_cases h1 : k < i + j
    · exact Or.inl (hbits i hi h1)
    · exact Or.inr (hbits (s + i) (by omega) (by omega))

/-- A fully smeared value is `2^(k+1) - 1`, and `n - (n >> 1)` leaves `2^k`. -/
theorem smeared_full (k j x : Nat) (hj : k < j) (h : Smeared k j x) :
    x - (x >>> 1) = 2 ^ k := by
  have hx : x = 2 ^ (k + 1) - 1 := by
    apply Nat.eq_of_testBit_eq
    intro i
    rw [Nat.testBit_two_pow_sub_one]
    by_cases hi : i < k + 1
    · rw [h.2 i (by omega) (by omega)]; simp [hi]
    · rw [Nat.testBit_lt_two_pow
        (lt_of_lt_of_le h.1 (Nat.pow_le_pow_right (by norm_num) (by omega)))]
      simp [hi]
  have hp : 0 < 2 ^ k := by positivity
  rw [hx, Nat.shiftRight_eq_div_pow, pow_one, pow_succ]
  omega


theorem lt_of_two_pow_le_of_lt (n k w : Nat) (hle : 2 ^ k ≤ n) (hn : n < 2 ^ w) : k < w := by
  by_contra hc
  have : 2 ^ w ≤ 2 ^ k := Nat.pow_le_pow_right (by norm_num) (by omega)
  omega

theorem get_highest_bit_u8_spec (n : Nat) (hn : n < 2 ^ 8) (h0 : n ≠ 0) :
    ∃ k, get_highest_bit_u8 n = 2 ^ k ∧ 2 ^ k ≤ n ∧ n < 2 ^ (k + 1) := by
  obtain ⟨k, hle, hlt, hs⟩ := smeared_init n h0
  have hk : k < 8 := lt_of_two_pow_le_of_lt n k 8 hle hn
  have h1 := smeared_step k _ 1 _ (by norm_num) hs
  have h2 := smeared_step k _ 2 _ (by norm_num) h1
  have h3 := smeared_step k _ 4 _ (by norm_num) h2
  refine ⟨k, ?_, hle, hlt⟩
  unfold get_highest_bit_u8
  simp only []
  rw [smeared_full k _ _ (by omega) h3]
  exact Nat.mod_eq_of_lt (Nat.pow_lt_pow_right (by norm_num) hk)

theorem get_highest_bit_u16_spec (n : Nat) (hn : n < 2 ^ 16) (h0 : n ≠ 0) :
    ∃ k, get_highest_bit_u16 n = 2 ^ k ∧ 2 ^ k ≤ n ∧ n < 2 ^ (k + 1) := by
  obtain ⟨k, hle, hlt, hs⟩ := smeared_init n h0
  have hk : k < 16 := lt_of_two_pow_le_of_lt n k 16 hle hn
  have h1 := smeared_step k _ 1 _ (by norm_num) hs
  have h2 := smeared_step k _ 2 _ (by norm_num) h1
  have h3 := smeared_step k _ 4 _ (by norm_num) h2
  have h4 := smeared_step k _ 8 _ (by norm_num) h3
  refine ⟨k, ?_, hle, hlt⟩
  unfold get_highest_bit_u16
  simp only []
  rw [smeared_full k _ _ (by omega) h4]
  exact Nat.mod_eq_of_lt (Nat.pow_lt_pow_right (by norm_num) hk)

theorem get_highest_bit_u32_spec (n : Nat) (hn : n < 2 ^ 32) (h0 : n ≠ 0) :
    ∃ k, get_highest_bit_u32 n = 2 ^ k ∧ 2 ^ k ≤ n ∧ n < 2 ^ (k + 1) := by
  obtain ⟨k, hle, hlt, hs⟩ := smeared_init n h0
  have hk : k < 32 := lt_of_two_pow_le_of_lt n k 32 hle hn
  have h1 := smeared_step k _ 1 _ (by norm_num) hs
  have h2 := smeared_step k _ 2 _ (by norm_num) h1
  have h3 := smeared_step k _ 4 _ (by norm_num) h2
  have h4 := smeared_step k _ 8 _ (by norm_num) h3
  have h5 := smeared_step k _ 16 _ (by norm_num) h4
  refine ⟨k, ?_, hle, hlt⟩
  unfold get_highest_bit_u32
  simp only []
  rw [smeared_full k _ _ (by omega) h5]
  exact Nat.mod_eq_of_lt (Nat.pow_lt_pow_right (by norm_num) hk)

theorem get_highest_bit_u64_spec (n : Nat) (hn : n < 2 ^ 64) (h0 : n ≠ 0) :
    ∃ k, get_highest_bit_u64 n = 2 ^ k ∧ 2 ^ k ≤ n ∧ n < 2 ^ (k + 1) := by
  obtain ⟨k, hle, hlt, hs⟩ := smeared_init n h0
  have hk : k < 64 := lt_of_two_pow_le_of_lt n k 64 hle hn
  have h1 := smeared_step k _ 1 _ (by norm_num) hs
  have h2 := smeared_step k _ 2 _ (by norm_num) h1
  have h3 := smeared_step k _ 4 _ (by norm_num) h2
  have h4 := smeared_step k _ 8 _ (by norm_num) h3
  have h5 := smeared_step k _ 16 _ (by norm_num) h4
  have h6 := smeared_step k _ 32 _ (by norm_num) h5
  refine ⟨k, ?_, hle, hlt⟩
  unfold get_highest_bit_u64
  simp only []
  rw [smeared_full k _ _ (by omega) h6]
  exact Nat.mod_eq_of_lt (Nat.pow_lt_pow_right (by norm_num) hk)

/-- Claim C6: for each width 8, 16, 32 and 64 and every unsigned `n` of that
width, `get_highest_bit(n)` is 0 when `n == 0` and otherwise the power of two
`2^k` with `2^k <= n < 2^(k+1)`; and `get_highest_bit(UInt8(0x5A)) == 0x40`. -/
theorem get_highest_bit_isolates (n : Nat) :
    (n < 2 ^ 8 → (n = 0 → get_highest_bit_u8 n = 0) ∧
      (n ≠ 0 → ∃ k, get_highest_bit_u8 n = 2 ^ k ∧ 2 ^ k ≤ n ∧ n < 2 ^ (k + 1))) ∧
    (n < 2 ^ 16 → (n = 0 → get_highest_bit_u16 n = 0) ∧
      (n ≠ 0 → ∃ k, get_highest_bit_u16 n = 2 ^ k ∧ 2 ^ k ≤ n ∧ n < 2 ^ (k + 1))) ∧
    (n < 2 ^ 32 → (n = 0 → get_highest_bit_u32 n = 0) ∧
      (n ≠ 0 → ∃ k, get_highest_bit_u32 n = 2 ^ k ∧ 2 ^ k ≤ n ∧ n < 2 ^ (k + 1))) ∧
    (n < 2 ^ 64 → (n = 0 → get_highest_bit_u64 n = 0) ∧
      (n ≠ 0 → ∃ k, get_highest_bit_u64 n = 2 ^ k ∧ 2 ^ k ≤ n ∧ n < 2 ^ (k + 1))) ∧
    get_highest_bit_u8 0x5A = 0x40 := by
  refine ⟨fun hn => ⟨?_, get_highest_bit_u8_spec n hn⟩,
    fun hn => ⟨?_, get_highest_bit_u16_spec n hn⟩,
    fun hn => ⟨?_, get_highest_bit_u32_spec n hn⟩,
    fun hn => ⟨?_, get_highest_bit_u64_spec n hn⟩, by decide⟩ <;>
  · rintro rfl
    decide

/-- Witness of C6 at one non-zero input of each width. -/
theorem get_highest_bit_isolates_witness :
    (∃ k, get_highest_bit_u8 0x5A = 2 ^ k ∧ 2 ^ k ≤ 0x5A ∧ 0x5A < 2 ^ (k + 1)) ∧
    (∃ k, get_highest_bit_u16 0x5A5A = 2 ^ k ∧ 2 ^ k ≤ 0x5A5A ∧ 0x5A5A < 2 ^ (k + 1)) ∧
    (∃ k, get_highest_bit_u32 0x5A5A5A5A = 2 ^ k ∧ 2 ^ k ≤ 0x5A5A5A5A ∧
      0x5A5A5A5A < 2 ^ (k + 1)) ∧
    (∃ k, get_highest_bit_u64 (2 ^ 64 - 1) = 2 ^ k ∧ 2 ^ k ≤ 2 ^ 64 - 1 ∧
      2 ^ 64 - 1 < 2 ^ (k + 1)) :=
  ⟨((get_highest_bit_isolates 0x5A).1 (by norm_num)).2 (by norm_num),
   ((get_highest_bit_isolates 0x5A5A).2.1 (by norm_num)).2 (by norm_num),
   ((get_highest_bit_isolates 0x5A5A5A5A).2.2.1 (by norm_num)).2 (by norm_num),
   ((get_highest_bit_isolates (2 ^ 64 - 1)).2.2.2.1 (by norm_num)).2 (by norm_num)⟩

/-! ### Angles -/

/-- For a positive modulus, `fmod x y` differs from `x` by an integer
multiple of `y`, lies strictly between `-y` and `y`, and is non-negative
when `x` is. -/
theorem fmod_spec (x y : ℚ) (hy : 0 < y) :
    (∃ n : ℤ, fmod x y = x - n * y) ∧ -y < fmod x y ∧ fmod x y < y ∧
    (0 ≤ x → 0 ≤ fmod x y) := by
  unfold fmod
  by_cases hq : 0 ≤ x / y
  · rw [if_pos hq]
    have h1 : (⌊x / y⌋ : ℚ) ≤ x / y := Int.floor_le _
    have h2 : x / y < ⌊x / y⌋ + 1 := Int.lt_floor_add_one _
    have h3 : (⌊x / y⌋ : ℚ) * y ≤ x := (le_div_iff₀ hy).mp h1
    have h4 : x < (⌊x / y⌋ + 1) * y := (div_lt_iff₀ hy).mp h2
    refine ⟨⟨_, rfl⟩, by linarith, by linarith, fun _ => by linarith⟩
  · rw [if_neg hq]
    have hx : x < 0 := by
      by_contra hc
      exact hq (div_nonneg (not_lt.mp hc) hy.le)
    have h1 : x / y ≤ (⌈x / y⌉ : ℚ) := Int.le_ceil _
    have h2 : (⌈x / y⌉ : ℚ) < x / y + 1 := Int.ceil_lt_add_one _
    have h3 : x ≤ (⌈x / y⌉ : ℚ) * y := (div_le_iff₀ hy).mp h1
    have h4 : (⌈x / y⌉ : ℚ) - 1 < x / y := by linarith
    have h5 : ((⌈x / y⌉ : ℚ) - 1) * y < x := (lt_div_iff₀ hy).mp h4
    refine ⟨⟨_, rfl⟩, by linarith, by linarith, fun h => absurd h (not_le.mpr hx)⟩

/-- For a positive modulus, `SMODF(a, n)` is the residue of `a` in `[0, n)`. -/
theorem SMODF_spec (a n : ℚ) (hn : 0 < n) :
    0 ≤ SMODF a n ∧ SMODF a n < n ∧ ∃ m : ℤ, SMODF a n = a - m * n := by
  obtain ⟨⟨k, hk⟩, h1, h2, -⟩ := fmod_spec a n hn
  obtain ⟨⟨j, hj⟩, -, h4, h5⟩ := fmod_spec (fmod a n + n) n hn
  unfold SMODF
  refine ⟨h5 (by linarith), h4, k + j - 1, ?_⟩
  rw [hj, hk]; push_cast; ring

/-- The angle difference lies in `[-180, 180)` and differs from `b - a` by
an integer multiple of 360. -/
theorem get_angle_difference_spec (a b : ℚ) :
    -180 ≤ get_angle_difference a b ∧ get_angle_difference a b < 180 ∧
    ∃ m : ℤ, get_angle_difference a b = (b - a) + 360 * m := by
  obtain ⟨h1, h2, m, hm⟩ := SMODF_spec ((b - a) + 180) 360 (by norm_num)
  unfold get_angle_difference
  refine ⟨by linarith, by linarith, -m, ?_⟩
  rw [hm]; push_cast; ring

/-- Claim C8 fails as stated: `get_angle_difference(0, 180)` is `-180`,
which is outside the half-open interval `(-180, 180]`. -/
theorem get_angle_difference_antipodal :
    get_angle_difference 0 180 = -180 ∧
    ¬ (-180 < get_angle_difference 0 180 ∧ get_angle_difference 0 180 ≤ 180) := by
  decide!

/-- Claim C8, amended: for all angles `a` and `b`,
`get_angle_difference(a, b)` lies in the half-open interval `[-180, 180)` and
is congruent to `b - a` modulo 360. -/
theorem get_angle_difference_half_open (a b : ℚ) :
    (-180 ≤ get_angle_difference a b ∧ get_angle_difference a b < 180) ∧
    ∃ m : ℤ, get_angle_difference a b - (b - a) = 360 * m := by
  obtain ⟨h1, h2, m, hm⟩ := get_angle_difference_spec a b
  exact ⟨⟨h1, h2⟩, m, by rw [hm]; ring⟩

/-- Claim C9 fails as stated: `get_angle_difference(0, 180)` and
`get_angle_difference(180, 0)` are both `-180`, so neither is the negation
of the other. -/
theorem get_angle_difference_not_antisymmetric :
    get_angle_difference 0 180 = -180 ∧ get_angle_difference 180 0 = -180 ∧
    get_angle_difference 0 180 ≠ -get_angle_difference 180 0 := by
  decide!

/-- Claim C9, amended: `get_angle_difference(a, b) == -get_angle_difference(b, a)`
whenever `get_angle_difference(a, b) != -180`; in the remaining, antipodal
case both differences are `-180`. -/
theorem get_angle_difference_antisymm (a b : ℚ) :
    (get_angle_difference a b ≠ -180 →
      get_angle_difference a b = -get_angle_difference b a) ∧
    (get_angle_difference a b = -180 → get_angle_difference b a = -180) := by
  obtain ⟨h1, h2, m, hm⟩ := get_angle_difference_spec a b
  obtain ⟨h3, h4, k, hk⟩ := get_angle_difference_spec b a
  have hsum : get_angle_difference a b + get_angle_difference b a
      = 360 * ((m + k : ℤ) : ℚ) := by
    rw [hm, hk]; push_cast; ring
  have hlo : (-1 : ℚ) ≤ ((m + k : ℤ) : ℚ) := by linarith
  have hhi : ((m + k : ℤ) : ℚ) < 1 := by linarith
  have hlo' : (-1 : ℤ) ≤ m + k := by exact_mod_cast hlo
  have hhi' : m + k < (1 : ℤ) := by exact_mod_cast hhi
  have hcases : m + k = 0 ∨ m + k = -1 := by omega
  constructor
  · intro hne
    rcases hcases with h | h
    · rw [h] at hsum; simp at hsum; linarith
    · rw [h] at hsum
      exfalso; apply hne
      push_cast at hsum
      linarith
  · intro heq
    rcases hcases with h | h
    · rw [h] at hsum; simp at hsum; linarith
    · rw [h] at hsum; push_cast at hsum; linarith

/-- Witness of the amended C9: the generic case at `(0, 90)` and the
antipodal case at `(0, 180)`. -/
theorem get_angle_difference_antisymm_witness :
    get_angle_difference 0 90 = -get_angle_difference 90 0 ∧
    get_angle_difference 180 0 = -180 :=
  ⟨(get_angle_difference_antisymm 0 90).1 (by decide!),
   (get_angle_difference_antisymm 0 180).2 (by decide!)⟩

/-- The subtracting loop ends at or below `max`, leaves an angle at or below
`max` alone, stays above `max - 360` when it ran, and subtracts a multiple
of 360. -/
theorem normalize_down_spec (max ang : ℚ) :
    normalize_down max ang ≤ max ∧ (ang ≤ max → normalize_down max ang = ang) ∧
    (max < ang → max - 360 < normalize_down max ang) ∧
    ∃ n : ℤ, normalize_down max ang = ang - 360 * n := by
  induction ang using normalize_down.induct max with
  | case1 ang h ih =>
    obtain ⟨h1, h2, h3, n, hn⟩ := ih
    rw [normalize_down, if_pos h]
    refine ⟨h1, fun hle => absurd h (not_lt.mpr hle), fun _ => ?_, n + 1, ?_⟩
    · rcases le_or_lt (ang - 360) max with hc | hc
      · rw [h2 hc]; linarith
      · exact h3 hc
    · rw [hn]; push_cast; ring
  | case2 ang h =>
    rw [normalize_down, if_neg h]
    exact ⟨not_lt.mp h, fun _ => rfl, fun hc => absurd hc h, 0, by simp⟩

/-- The adding loop ends above `base`, leaves an angle above `base` alone,
stays at or below `base + 360` when it ran, and adds a multiple of 360. -/
theorem normalize_up_spec (base ang : ℚ) :
    base < normalize_up base ang ∧ (base < ang → normalize_up base ang = ang) ∧
    (ang ≤ base → normalize_up base ang ≤ base + 360) ∧
    ∃ n : ℤ, normalize_up base ang = ang + 360 * n := by
  induction ang using normalize_up.induct base with
  | case1 ang h ih =>
    obtain ⟨h1, h2, h3, n, hn⟩ := ih
    rw [normalize_up, if_pos h]
    refine ⟨h1, fun hlt => absurd h (not_le.mpr hlt), fun _ => ?_, n + 1, ?_⟩
    · rcases le_or_lt (ang + 360) base with hc | hc
      · exact h3 hc
      · rw [h2 hc]; linarith
    · rw [hn]; push_cast; ring
  | case2 ang h =>
    rw [normalize_up, if_neg h]
    exact ⟨not_le.mp h, fun _ => rfl, fun hc => absurd hc h, 0, by simp⟩

/-- The base-relative normalisation lands in `(base, base + 360]`, moves the
angle by a multiple of 360, and fixes every angle already in that interval. -/
theorem normalize_angle_base_spec (ang base : ℚ) :
    base < normalize_angle_base ang base ∧ normalize_angle_base ang base ≤ base + 360 ∧
    (∃ n : ℤ, normalize_angle_base ang base = ang + 360 * n) ∧
    (base < ang → ang ≤ base + 360 → normalize_angle_base ang base = ang) := by
  obtain ⟨d1, d2, d3, n, hn⟩ := normalize_down_spec (base + 360) ang
  obtain ⟨u1, u2, u3, m, hm⟩ := normalize_up_spec base (normalize_down (base + 360) ang)
  unfold normalize_angle_base
  simp only []
  refine ⟨u1, ?_, ⟨m - n, ?_⟩, ?_⟩
  · rcases le_or_lt (normalize_down (base + 360) ang) base with hc | hc
    · exact u3 hc
    · rw [u2 hc]; exact d1
  · rw [hm, hn]; push_cast; ring
  · intro h1 h2
    rw [d2 h2] at u2 ⊢
    exact u2 h1

/-- The one-argument overload is the two-argument one at `base = -180`. -/
theorem normalize_angle_eq_base (ang : ℚ) :
    normalize_angle ang = normalize_angle_base ang (-180) := by
  unfold normalize_angle normalize_angle_base
  norm_num

/-- The contract of `normalize_angle` in exact arithmetic, where no sum or
difference is rounded: `normalize_angle(ang, base)` lies in
`(base, base + 360]` and `normalize_angle(ang)` lies in `(-180, 180]`; each
differs from `ang` by an integer multiple of 360 and each is idempotent.
This says nothing about the exit of the loops on doubles, where a difference
can round back to the value it started from. -/
theorem normalize_angle_exact_contract (ang base : ℚ) :
    (base < normalize_angle_base ang base ∧ normalize_angle_base ang base ≤ base + 360) ∧
    (-180 < normalize_angle ang ∧ normalize_angle ang ≤ 180) ∧
    (∃ n : ℤ, normalize_angle_base ang base - ang = 360 * n) ∧
    (∃ n : ℤ, normalize_angle ang - ang = 360 * n) ∧
    normalize_angle_base (normalize_angle_base ang base) base
      = normalize_angle_base ang base ∧
    normalize_angle (normalize_angle ang) = normalize_angle ang := by
  obtain ⟨b1, b2, ⟨n, hn⟩, _⟩ := normalize_angle_base_spec ang base
  obtain ⟨c1, c2, ⟨m, hm⟩, _⟩ := normalize_angle_base_spec ang (-180)
  have hb := (normalize_angle_base_spec (normalize_angle_base ang base) base).2.2.2 b1 b2
  have hc :=
    (normalize_angle_base_spec (normalize_angle_base ang (-180)) (-180)).2.2.2 c1 c2
  simp only [normalize_angle_eq_base]
  refine ⟨⟨b1, b2⟩, ⟨c1, by linarith⟩, ⟨n, by rw [hn]; ring⟩, ⟨m, by rw [hm]; ring⟩,
    hb, hc⟩

/-! ### Angle normalisation with `Double` rounding -/

/-- A value below `2^p` has at most `p` significant bits, whatever the fuel. -/
theorem bit_length_aux_le (fuel : Nat) :
    ∀ p n : Nat, n < 2 ^ p → bit_length_aux fuel n ≤ p := by
  induction fuel with
  | zero => intro p n _; simp [bit_length_aux]
  | succ f ih =>
    intro p n h
    rw [bit_length_aux]
    split_ifs with h0
    · exact Nat.zero_le p
    · cases p with
      | zero => simp at h; omega
      | succ q =>
        have := ih q (n / 2) (by rw [pow_succ] at h; omega)
        omega

/-- With fuel at least `n` the halvings reach zero: the count `b` is the bit
length of `n`, that is `2^(b-1) <= n < 2^b` for `n != 0`. -/
theorem bit_length_aux_spec (fuel : Nat) : ∀ n : Nat, n ≤ fuel →
    n < 2 ^ bit_length_aux fuel n ∧ (n ≠ 0 → 2 ^ (bit_length_aux fuel n - 1) ≤ n) := by
  induction fuel with
  | zero =>
    intro n h
    have : n = 0 := by omega
    subst this
    simp [bit_length_aux]
  | succ f ih =>
    intro n h
    rw [bit_length_aux]
    split_ifs with h0
    · subst h0; simp
    · obtain ⟨h1, h2⟩ := ih (n / 2) (by omega)
      refine ⟨by rw [pow_succ]; omega, fun _ => ?_⟩
      rw [Nat.add_sub_cancel]
      by_cases hh : n / 2 = 0
      · have hb : bit_length_aux f (n / 2) = 0 := by
          rw [hh]; cases f <;> simp [bit_length_aux]
        rw [hb]; simp; omega
      · have h3 := h2 hh
        have hb : bit_length_aux f (n / 2) ≠ 0 := by
          intro hb
          rw [hb] at h1
          simp at h1
          exact hh h1
        obtain ⟨b, hb'⟩ : ∃ b, bit_length_aux f (n / 2) = b + 1 :=
          ⟨bit_length_aux f (n / 2) - 1, by omega⟩
        rw [hb'] at h3 ⊢
        rw [Nat.add_sub_cancel] at h3
        rw [pow_succ]; omega

/-- The definition `bit_length` is the bit length. -/
theorem bit_length_spec (n : Nat) :
    n < 2 ^ bit_length n ∧ (n ≠ 0 → 2 ^ (bit_length n - 1) ≤ n) :=
  bit_length_aux_spec n n le_rfl

/-- A value below `2^p` has at most `p` significant bits and is not rounded. -/
theorem round_to_bits_of_lt (p n : Nat) (h : n < 2 ^ p) : round_to_bits p n = n := by
  have hlen : bit_length n ≤ p := bit_length_aux_le n p n h
  have he : bit_length n - p = 0 := by omega
  simp only [round_to_bits, he, pow_zero, Nat.div_one, Nat.mod_one, mul_one]
  rw [if_neg (by omega)]

/-- An integer of magnitude below `2^53` is a `Double` and is not rounded. -/
theorem round_double_of_small (z : Int) (h : z.natAbs < 2 ^ 53) : round_double z = z := by
  unfold round_double
  rw [round_to_bits_of_lt 53 _ h]
  split_ifs with hz <;> omega

/-- The step `ang -= 360` at `ang = 1e19` gives back `1e19`: the spacing of
doubles there is 2048, and `1e19 - 360` is nearer to `1e19` than to
`1e19 - 2048`. -/
theorem round_double_stuck :
    round_double (10000000000000000000 - 360) = 10000000000000000000 := by
  decide

/-- From `ang = 1e19` the subtracting loop never exits, whatever the bound
below `1e19` and whatever the number of iterations allowed. -/
theorem normalize_down_double_stuck (max : Int) (h : max < 10000000000000000000) :
    ∀ fuel, normalize_down_double fuel max 10000000000000000000 = none := by
  intro fuel
  induction fuel with
  | zero => rfl
  | succ n ih => rw [normalize_down_double, if_pos h, round_double_stuck, ih]

/-- Claim C10, evaluated where it fails: `1e19` is a finite `Double` above
180, and `1e19 - 360` rounds back to `1e19`, so the loop
`while(ang > 180) ang -= 360;` never exits: `normalize_angle(1e19)` and
`normalize_angle(1e19, -180)` return no value, for any number of iterations.
On a small angle the same loops return, e.g. `normalize_angle(540) == 180`. -/
theorem normalize_angle_double_never_returns :
    (180 : Int) < 10000000000000000000 ∧
    round_double (10000000000000000000 - 360) = 10000000000000000000 ∧
    (∀ fuel, normalize_angle_double fuel 10000000000000000000 = none) ∧
    (∀ fuel, normalize_angle_base_double fuel 10000000000000000000 (-180) = none) ∧
    normalize_angle_double 4 540 = some 180 := by
  refine ⟨by decide, round_double_stuck, fun fuel => ?_, fun fuel => ?_, by decide⟩
  · unfold normalize_angle_double
    rw [normalize_down_double_stuck 180 (by decide) fuel]
  · have hmax : round_double (-180 + 360) = 180 := by decide
    unfold normalize_angle_base_double
    simp only [hmax]
    rw [normalize_down_double_stuck 180 (by decide) fuel]

/-! ### Angle approach, interpolation and clamping -/

/-- The value of `approach_angle`, without the local rebinding of `diff`. -/
theorem approach_angle_eq (a b amount : ℚ) :
    approach_angle a b amount = a +
      (if get_angle_difference a b > amount then amount
       else if get_angle_difference a b < -amount then -amount
       else get_angle_difference a b) := rfl

/-- Claim C11: for `maxDelta >= 0` and `d = get_angle_difference(a, b)`:
if `|d| <= maxDelta` then `approach_angle(a, b, maxDelta) == a + d`, which is
congruent to `b` modulo 360; otherwise the result is `a + maxDelta` when
`d > 0` and `a - maxDelta` when `d < 0`; with the examples
`approach_angle(0,170,200) == 170`, `approach_angle(0,170,10) == 10` and
`approach_angle(170,-170,5) == 175`. -/
theorem approach_angle_contract (a b maxDelta : ℚ) (h : 0 ≤ maxDelta) :
    (|get_angle_difference a b| ≤ maxDelta →
      approach_angle a b maxDelta = a + get_angle_difference a b ∧
      ∃ m : ℤ, approach_angle a b maxDelta - b = 360 * m) ∧
    (maxDelta < |get_angle_difference a b| →
      (0 < get_angle_difference a b → approach_angle a b maxDelta = a + maxDelta) ∧
      (get_angle_difference a b < 0 → approach_angle a b maxDelta = a - maxDelta)) ∧
    approach_angle 0 170 200 = 170 ∧ approach_angle 0 170 10 = 10 ∧
    approach_angle 170 (-170) 5 = 175 := by
  obtain ⟨-, -, m, hm⟩ := get_angle_difference_spec a b
  rw [approach_angle_eq]
  refine ⟨fun hd => ?_, fun hd => ⟨fun hpos => ?_, fun hneg => ?_⟩, by decide!, by decide!,
    by decide!⟩
  · obtain ⟨h1, h2⟩ := abs_le.mp hd
    rw [if_neg (not_lt.mpr h2), if_neg (not_lt.mpr h1)]
    exact ⟨rfl, m, by rw [hm]; ring⟩
  · rw [abs_of_pos hpos] at hd
    rw [if_pos hd]
  · rw [abs_of_neg hneg] at hd
    rw [if_neg (by linarith), if_pos (by linarith)]
    ring

/-- Witness of C11 at `approach_angle(0, 170, 200)` (target reached) and at
`approach_angle(170, -170, 5)` (step across the wrap). -/
theorem approach_angle_contract_witness :
    (approach_angle 0 170 200 = 0 + get_angle_difference 0 170 ∧
      ∃ m : ℤ, approach_angle 0 170 200 - 170 = 360 * m) ∧
    approach_angle 170 (-170) 5 = 170 + 5 :=
  ⟨(approach_angle_contract 0 170 200 (by norm_num)).1 (by decide!),
   ((approach_angle_contract 170 (-170) 5 (by norm_num)).2.1 (by decide!)).1 (by decide!)⟩

/-- For a fraction `t` in `[0, 1]`, `lerp_angle` moves by `t` times the
magnitude of the difference, whatever the sign of the difference. -/
theorem lerp_angle_eq (a b t : ℚ) (h0 : 0 ≤ t) (h1 : t ≤ 1) :
    (0 ≤ get_angle_difference a b →
      lerp_angle a b t = a + t * get_angle_difference a b) ∧
    (get_angle_difference a b < 0 →
      lerp_angle a b t = a - t * get_angle_difference a b) := by
  unfold lerp_angle
  simp only []
  rw [approach_angle_eq]
  constructor
  · intro hd
    have hle : get_angle_difference a b * t ≤ get_angle_difference a b := by nlinarith
    have hnn : 0 ≤ get_angle_difference a b * t := mul_nonneg hd h0
    split_ifs with c1 c2
    · ring
    · linarith
    · have : get_angle_difference a b * t = get_angle_difference a b := by linarith
      linarith
  · intro hd
    have hle : get_angle_difference a b ≤ get_angle_difference a b * t := by nlinarith
    have hnp : get_angle_difference a b * t ≤ 0 := by nlinarith
    split_ifs with c1 c2
    · linarith
    · ring
    · linarith

/-- Claim C12, evaluated where it fails: the difference from 0 to `-90` is
`-90`, yet `lerp_angle(0, -90, 1)` is 90 and `lerp_angle(0, -90, 1/2)` is 45;
the interpolation moves away from `b`, and at `t = 1` the result is not
congruent to `b` modulo 360. -/
theorem lerp_angle_negative_difference :
    get_angle_difference 0 (-90) = -90 ∧
    lerp_angle 0 (-90) 1 = 90 ∧ lerp_angle 0 (-90) (1 / 2) = 45 ∧
    lerp_angle 0 (-90) 1 ≠ 0 + 1 * get_angle_difference 0 (-90) ∧
    ¬ ∃ m : ℤ, lerp_angle 0 (-90) 1 - (-90) = 360 * m := by
  have h1 : lerp_angle 0 (-90) 1 = 90 := by decide!
  refine ⟨by decide!, h1, by decide!, by decide!, ?_⟩
  rw [h1]
  rintro ⟨m, hm⟩
  have h2 : (0 : ℚ) < m := by linarith
  have h3 : (m : ℚ) < 1 := by linarith
  have h4 : (0 : ℤ) < m := by exact_mod_cast h2
  have h5 : m < (1 : ℤ) := by exact_mod_cast h3
  omega

/-- The one-argument normalisation of `x` is the only value in
`(-180, 180]` that differs from `x` by a multiple of 360. -/
theorem normalize_angle_unique (x r : ℚ) (n : ℤ) (h1 : -180 < r) (h2 : r ≤ 180)
    (h : r = x + 360 * n) : normalize_angle x = r := by
  obtain ⟨c1, c2, ⟨m, hm⟩, -⟩ := normalize_angle_base_spec x (-180)
  rw [normalize_angle_eq_base, hm, h]
  have hlo : ((n - m : ℤ) : ℚ) < 1 := by push_cast; linarith
  have hhi : (-1 : ℚ) < ((n - m : ℤ) : ℚ) := by push_cast; linarith
  have hlo' : n - m < (1 : ℤ) := by exact_mod_cast hlo
  have hhi' : (-1 : ℤ) < n - m := by exact_mod_cast hhi
  have : m = n := by omega
  rw [this]

/-- Claim C13 fails as stated: with `min = -200 <= ang = 0 <= max = 10` and
`max - min = 210 < 360`, `is_angle_in_range` is false and `clamp_angle`
returns `max`. -/
theorem clamp_angle_wide_arc :
    ((-200 : ℚ) ≤ 0 ∧ (0 : ℚ) ≤ 10 ∧ (10 : ℚ) - (-200) < 360) ∧
    is_angle_in_range 0 (-200) 10 = false ∧ clamp_angle 0 (-200) 10 = 10 ∧
    clamp_angle 0 (-200) 10 ≠ 0 := by
  decide!

/-- Claim C13, amended: for `min <= ang <= max` with `ang - min < 180` and
`max - ang <= 180`, `is_angle_in_range(ang, min, max)` is true and
`clamp_angle(ang, min, max) == ang`. -/
theorem clamp_angle_within_half_turn (ang min max : ℚ) (h1 : min ≤ ang) (h2 : ang ≤ max)
    (h3 : ang - min < 180) (h4 : max - ang ≤ 180) :
    is_angle_in_range ang min max = true ∧ clamp_angle ang min max = ang := by
  have hmin : normalize_angle (min - ang) = min - ang :=
    normalize_angle_unique (min - ang) (min - ang) 0 (by linarith) (by linarith) (by simp)
  have hmax : normalize_angle (max - ang) = max - ang :=
    normalize_angle_unique (max - ang) (max - ang) 0 (by linarith) (by linarith) (by simp)
  have hc : min - ang ≤ 0 ∧ max - ang ≥ 0 := ⟨by linarith, by linarith⟩
  unfold is_angle_in_range clamp_angle
  simp only [hmin, hmax, if_pos hc, and_self]

/-- Witness of the amended C13 at `ang = 0`, `min = -100`, `max = 100`. -/
theorem clamp_angle_within_half_turn_witness :
    is_angle_in_range 0 (-100) 100 = true ∧ clamp_angle 0 (-100) 100 = 0 :=
  clamp_angle_within_half_turn 0 (-100) 100 (by norm_num) (by norm_num) (by norm_num)
    (by norm_num)

theorem IntType.cast_Int32 (x : Int) (hlo : -(2 : Int) ^ 31 ≤ x) (hhi : x < 2 ^ 31) :
    IntType.Int32.cast x = x := by
  apply IntType.cast_eq_self _ (by decide)
  · simpa [IntType.lowest, IntType.Int32] using hlo
  · simp [IntType.max, IntType.Int32]; omega

theorem IntType.cast_UInt32 (x : Int) (hlo : 0 ≤ x) (hhi : x < 2 ^ 32) :
    IntType.UInt32.cast x = x := by
  apply IntType.cast_eq_self _ (by decide)
  · simpa [IntType.lowest, IntType.UInt32] using hlo
  · simp [IntType.max, IntType.UInt32]; omega

/-- The product `f * sign(f)` is the magnitude of `f`. -/
theorem mul_sign_eq_abs (f : ℚ) : f * ((sign f : Int) : ℚ) = |f| := by
  unfold sign
  split_ifs with h
  · rw [abs_of_nonneg h]; simp
  · rw [abs_of_neg (not_le.mp h)]; simp

/-- The conversion `CFloat` is exact up to `2^24`. -/
theorem CFloat_of_le (n : Nat) (h : n ≤ 2 ^ 24) : CFloat n = n := by
  unfold CFloat
  rcases Nat.lt_or_eq_of_le h with hlt | heq
  · rw [round_to_bits_of_lt 24 n hlt]
  · subst heq
    have : round_to_bits 24 (2 ^ 24) = 2 ^ 24 := by decide
    rw [this]

/-- Claim C15 fails as stated.  The nearest multiple of 5 to `2.75` is 5, but
`snap_to_grid(2.75, 5)` is 0, because the magnitude is truncated to the
integer 2 before it is rounded; likewise the tie `2.5` gives 0, not 5.  And on
the integer `f = 2^24` with `gridSize = 33554434` the nearest multiple is 0
(`2 * 2^24 < 33554434`), but `CFloat(33554434)` rounds to `33554432`, the test
`d < CFloat(gridSize) * 0.5f` is false, and the result is `33554434`. -/
theorem snap_to_grid_fractional :
    snap_to_grid (11 / 4) 5 = 0 ∧ (5 : ℚ) - 11 / 4 < 11 / 4 - 0 ∧
    snap_to_grid (5 / 2) 5 = 0 ∧
    CFloat 33554434 = 33554432 ∧ 2 * 16777216 < 33554434 ∧
    snap_to_grid 16777216 33554434 = 33554434 := by
  decide!

/-- Claim C15, amended: for `|f| < 2^31` and `0 < gridSize <= 2^24` (the
range on which `CFloat` is exact), with `n` the integer part of `|f|` and `m`
the multiple of `gridSize` nearest to `n` (ties rounded up),
`snap_to_grid(f, gridSize) == sign(f) * m` whenever `m` fits in `Int32`; and
`snap_to_grid(f, 0) == 0`. -/
theorem snap_to_grid_integer_part (f : ℚ) (gridSize : Nat) (hf : |f| < 2 ^ 31)
    (hg : 0 < gridSize) (hg24 : gridSize ≤ 2 ^ 24) :
    (∃ m : Int, (gridSize : Int) ∣ m ∧ 2 * m - gridSize ≤ 2 * ⌊|f|⌋ ∧
      2 * ⌊|f|⌋ < 2 * m + gridSize ∧
      (m < 2 ^ 31 → snap_to_grid f gridSize = sign f * m)) ∧
    snap_to_grid f 0 = 0 ∧ snap_to_grid (-7) 5 = -5 := by
  refine ⟨?_, by simp [snap_to_grid], by decide!⟩
  have hn0 : 0 ≤ ⌊|f|⌋ := Int.floor_nonneg.mpr (abs_nonneg f)
  have hn31 : ⌊|f|⌋ < 2 ^ 31 := by
    have : ((⌊|f|⌋ : Int) : ℚ) < ((2 ^ 31 : Int) : ℚ) := by
      push_cast
      exact lt_of_le_of_lt (Int.floor_le _) hf
    exact_mod_cast this
  have hs : sign f = 1 ∨ sign f = -1 := by
    unfold sign; split_ifs <;> simp
  have hg' : (0 : Int) < gridSize := by exact_mod_cast hg
  have hg32' : (gridSize : Int) < 2 ^ 32 := by
    have : (gridSize : Int) ≤ 2 ^ 24 := by exact_mod_cast hg24
    omega
  have hd0 : 0 ≤ ⌊|f|⌋ % (gridSize : Int) := Int.emod_nonneg _ (by omega)
  have hdg : ⌊|f|⌋ % (gridSize : Int) < gridSize := Int.emod_lt_of_pos _ hg'
  have hdiv := Int.emod_add_ediv ⌊|f|⌋ (gridSize : Int)
  have hq : 0 ≤ (gridSize : Int) * (⌊|f|⌋ / (gridSize : Int)) :=
    mul_nonneg hg'.le (Int.ediv_nonneg hn0 hg'.le)
  have hr : IntType.Int32.cast (float_to_int (f * ((sign f : Int) : ℚ))) = ⌊|f|⌋ := by
    rw [mul_sign_eq_abs, float_to_int, if_pos (abs_nonneg f)]
    exact IntType.cast_Int32 _ (by omega) hn31
  have hu : IntType.UInt32.cast ⌊|f|⌋ = ⌊|f|⌋ := IntType.cast_UInt32 _ hn0 (by omega)
  have hdnat : ((⌊|f|⌋ % (gridSize : Int)).toNat : Int) = ⌊|f|⌋ % (gridSize : Int) :=
    Int.toNat_of_nonneg hd0
  have hdle : (⌊|f|⌋ % (gridSize : Int)).toNat ≤ 2 ^ 24 := by
    have : (gridSize : Int) ≤ 2 ^ 24 := by exact_mod_cast hg24
    omega
  have hcd : CFloat (⌊|f|⌋ % (gridSize : Int)).toNat
      = ((⌊|f|⌋ % (gridSize : Int) : Int) : ℚ) := by
    rw [CFloat_of_le _ hdle, ← Int.cast_natCast, hdnat]
  have hcmp : (CFloat (⌊|f|⌋ % (gridSize : Int)).toNat < CFloat gridSize * (1 / 2)) ↔
      2 * (⌊|f|⌋ % (gridSize : Int)) < gridSize := by
    rw [hcd, CFloat_of_le gridSize hg24]
    constructor
    · intro h
      have : ((2 * (⌊|f|⌋ % (gridSize : Int)) : Int) : ℚ) < ((gridSize : Int) : ℚ) := by
        push_cast; linarith
      exact_mod_cast this
    · intro h
      have : ((2 * (⌊|f|⌋ % (gridSize : Int)) : Int) : ℚ) < ((gridSize : Int) : ℚ) := by
        exact_mod_cast h
      push_cast at this; linarith
  unfold snap_to_grid
  rw [if_neg (by omega)]
  simp only [hr, hu]
  by_cases hc : 2 * (⌊|f|⌋ % (gridSize : Int)) < gridSize
  · rw [if_pos (hcmp.mpr hc)]
    refine ⟨⌊|f|⌋ - ⌊|f|⌋ % (gridSize : Int), ⟨⌊|f|⌋ / (gridSize : Int), by omega⟩,
      by omega, by omega, fun _ => ?_⟩
    have hA : IntType.UInt32.cast (⌊|f|⌋ - ⌊|f|⌋ % (gridSize : Int))
        = ⌊|f|⌋ - ⌊|f|⌋ % (gridSize : Int) := IntType.cast_UInt32 _ (by omega) (by omega)
    have hB : IntType.Int32.cast (⌊|f|⌋ - ⌊|f|⌋ % (gridSize : Int))
        = ⌊|f|⌋ - ⌊|f|⌋ % (gridSize : Int) := IntType.cast_Int32 _ (by omega) (by omega)
    rw [hA, hB]
    rcases hs with h | h <;> rw [h]
    · rw [IntType.cast_Int32 _ (by omega) (by omega)]; ring
    · rw [IntType.cast_Int32 _ (by omega) (by omega)]; ring
  · rw [if_neg (fun h => hc (hcmp.mp h))]
    refine ⟨⌊|f|⌋ - ⌊|f|⌋ % (gridSize : Int) + gridSize,
      ⟨⌊|f|⌋ / (gridSize : Int) + 1, by rw [mul_add, mul_one]; omega⟩,
      by omega, by omega, fun hm => ?_⟩
    have hA : IntType.UInt32.cast ((gridSize : Int) - ⌊|f|⌋ % (gridSize : Int))
        = (gridSize : Int) - ⌊|f|⌋ % (gridSize : Int) :=
      IntType.cast_UInt32 _ (by omega) (by omega)
    have hB : IntType.UInt32.cast (⌊|f|⌋ + ((gridSize : Int) - ⌊|f|⌋ % (gridSize : Int)))
        = ⌊|f|⌋ + ((gridSize : Int) - ⌊|f|⌋ % (gridSize : Int)) :=
      IntType.cast_UInt32 _ (by omega) (by omega)
    have hC : IntType.Int32.cast (⌊|f|⌋ + ((gridSize : Int) - ⌊|f|⌋ % (gridSize : Int)))
        = ⌊|f|⌋ + ((gridSize : Int) - ⌊|f|⌋ % (gridSize : Int)) :=
      IntType.cast_Int32 _ (by omega) (by omega)
    rw [hA, hB, hC]
    rcases hs with h | h <;> rw [h]
    · rw [IntType.cast_Int32 _ (by omega) (by omega)]; ring
    · rw [IntType.cast_Int32 _ (by omega) (by omega)]; ring

/-- Witness of the amended C15 at `snap_to_grid(-7.0, 5)`. -/
theorem snap_to_grid_integer_part_witness :
    (∃ m : Int, ((5 : Nat) : Int) ∣ m ∧ 2 * m - (5 : Nat) ≤ 2 * ⌊|(-7 : ℚ)|⌋ ∧
      2 * ⌊|(-7 : ℚ)|⌋ < 2 * m + (5 : Nat) ∧
      (m < 2 ^ 31 → snap_to_grid (-7) 5 = sign (-7) * m)) ∧
    snap_to_grid (-7) 0 = 0 ∧ snap_to_grid (-7) 5 = -5 :=
  snap_to_grid_integer_part (-7) 5 (by norm_num [abs_lt]) (by norm_num) (by norm_num)

/-! ### Greatest common divisor and least common multiple -/

/-- The loop returns the greatest common divisor, and never reaches a
modulo by zero, on all non-negative inputs. -/
theorem get_greatest_common_divisor_eq :
    ∀ a b : Nat, get_greatest_common_divisor a b = some (Nat.gcd a b) := by
  intro a
  induction a using Nat.strong_induction_on with
  | _ a ih =>
    intro b
    rw [get_greatest_common_divisor]
    by_cases ha0 : a = 0
    · subst ha0; simp
    · rw [dif_neg ha0]
      have hb : mod_checked b a = some (b % a) := by simp [mod_checked, ha0]
      split
      · next h => rw [hb] at h; exact absurd h (by simp)
      · next b1 h =>
        rw [hb] at h
        simp only [Option.some.injEq] at h
        subst h
        by_cases hb0 : b % a = 0
        · rw [dif_pos hb0]
          rw [Nat.gcd_rec, hb0, Nat.gcd_zero_left]
        · rw [dif_neg hb0]
          have ha' : mod_checked a (b % a) = some (a % (b % a)) := by
            simp [mod_checked, hb0]
          split
          · next h2 => rw [ha'] at h2; exact absurd h2 (by simp)
          · next a1 h2 =>
            rw [ha'] at h2
            simp only [Option.some.injEq] at h2
            subst h2
            have hlt : a % (b % a) < a :=
              lt_trans (Nat.mod_lt _ (Nat.pos_of_ne_zero hb0))
                (Nat.mod_lt _ (Nat.pos_of_ne_zero ha0))
            rw [ih _ hlt]
            congr 1
            conv_rhs => rw [Nat.gcd_rec, Nat.gcd_rec]

/-- Claim C16: for all non-negative `a` and `b` the loop of
`get_greatest_common_divisor(a, b)` terminates, never evaluates a modulo by
zero, and returns the greatest common divisor of `a` and `b`; in particular
`gcd(0, b) == b`, `gcd(a, 0) == a` and `gcd(0, 0) == 0`. -/
theorem get_greatest_common_divisor_correct (a b : Nat) :
    get_greatest_common_divisor a b = some (Nat.gcd a b) ∧
    get_greatest_common_divisor 0 b = some b ∧
    get_greatest_common_divisor a 0 = some a ∧
    get_greatest_common_divisor 0 0 = some 0 := by
  have key := get_greatest_common_divisor_eq
  refine ⟨key a b, ?_, ?_, ?_⟩
  · rw [key, Nat.gcd_zero_left]
  · rw [key, Nat.gcd_zero_right]
  · rw [key]; rfl


theorem div_gcd_mul_eq_lcm (a b : Nat) : a / Nat.gcd a b * b = Nat.lcm a b := by
  rw [Nat.lcm, Nat.mul_comm (a / Nat.gcd a b) b, ← Nat.mul_div_assoc b (Nat.gcd_dvd_left a b),
    Nat.mul_comm b a]

/-- Claim C17: for non-negative `a` and `b` whose least common multiple
fits in `T`, `get_least_common_multiple(a, b)` returns the least common
multiple (so `gcd(a,b) * lcm(a,b) == a * b`) without dividing by zero, and it
returns 0 when both inputs are 0. -/
theorem get_least_common_multiple_correct (T : IntType) (hT : 0 < T.bits) (a b : Nat)
    (hfit : (Nat.lcm a b : Int) ≤ T.max) :
    get_least_common_multiple T a b = some (Nat.lcm a b : Int) ∧
    Nat.gcd a b * Nat.lcm a b = a * b ∧
    get_least_common_multiple T 0 0 = some 0 := by
  have hgcd := get_greatest_common_divisor_eq
  have hlow : T.lowest ≤ (Nat.lcm a b : Int) := by
    have h0 : (0 : Int) ≤ (Nat.lcm a b : Int) := Int.natCast_nonneg _
    have hp : (0 : Int) < 2 ^ (T.bits - 1) := by positivity
    unfold IntType.lowest
    split_ifs <;> omega
  refine ⟨?_, Nat.gcd_mul_lcm a b, ?_⟩
  · unfold get_least_common_multiple
    rw [hgcd]
    simp only []
    by_cases hg : Nat.gcd a b = 0
    · rw [if_neg (by simpa using hg)]
      have ha : a = 0 := Nat.eq_zero_of_gcd_eq_zero_left hg
      subst ha
      simp
    · rw [if_pos hg]
      simp only [div_checked, if_neg hg]
      have : ((a / Nat.gcd a b : Nat) : Int) * (b : Int) = (Nat.lcm a b : Int) := by
        rw [← div_gcd_mul_eq_lcm a b]; push_cast; rfl
      rw [this, T.cast_eq_self hT _ hlow hfit]
  · unfold get_least_common_multiple
    rw [hgcd]
    simp

/-- Witness of C17 at `get_least_common_multiple<Int32>(4, 6)`. -/
theorem get_least_common_multiple_correct_witness :
    get_least_common_multiple .Int32 4 6 = some 12 ∧
    get_least_common_multiple .Int32 0 0 = some 0 :=
  have h := get_least_common_multiple_correct .Int32 (by decide) 4 6 (by decide!)
  ⟨h.1, h.2.2⟩

/-! ### Alignment by zero -/

/-- For a positive alignment the modulo is defined and a value is returned;
the value is the converted sum, which for a signed `T` is the result of the
code only when `baseOffset + alignment - r` does not overflow. -/
theorem get_aligned_offset_defined (T : IntType) (base alignment : Int)
    (h : 0 < alignment) : (get_aligned_offset T base alignment).isSome = true := by
  unfold get_aligned_offset
  rw [if_neg (by omega)]
  simp only []
  split_ifs <;> rfl

/-- Claim C18, evaluated where it fails: with `alignment == 0` the function
evaluates `baseOffset % alignment`, a modulo by zero, for every type and every
base; no guard precedes it, so no output is defined. -/
theorem get_aligned_offset_zero_alignment :
    (∀ (T : IntType) (base : Int), get_aligned_offset T base 0 = none) ∧
    get_aligned_offset .UInt32 16 0 = none := by
  refine ⟨fun T base => ?_, by decide⟩
  unfold get_aligned_offset
  rw [if_pos rfl]

/-! ### Saturation at the 64-bit boundary -/

/-- Claim C20, evaluated where it fails: the cast of a `UInt64` at or above
`2^63` to `long long` wraps to a negative value, so `limit<UInt32>` of
`2^64 - 1` and of `2^63` is 0 and `limit<Int8>(2^64 - 1)` is `-1`, not the
maximum of the destination; and with a `UInt64` destination the bound
`UInt64::MAX` itself wraps to `-1`, so `limit<UInt64>(5)` is `2^64 - 1`. -/
theorem limit_integral_uint64_wraps :
    IntType.LongLong.cast (2 ^ 64 - 1) = -1 ∧
    limit_integral .UInt32 (2 ^ 64 - 1) = 0 ∧ limit_integral .UInt32 (2 ^ 63) = 0 ∧
    limit_integral .Int8 (2 ^ 64 - 1) = -1 ∧
    limit_integral .UInt64 5 = 2 ^ 64 - 1 := by
  decide

/-! ### Half-precision codec -/

/-- The encoder on a pattern given by its three fields. -/
theorem compress_fields (s e m : Nat) (hs : s < 2) (he : e < 256) (hm : m < 2 ^ 23) :
    Float16Compressor.compress (s * 2 ^ 31 + e * 2 ^ 23 + m) =
      if e = 255 then
        if m = 0 then s * 2 ^ 15 + 31 * 2 ^ 10
        else s * 2 ^ 15 + 31 * 2 ^ 10 + Nat.max 1 (m / 2 ^ 13)
      else if e > 142 then s * 2 ^ 15 + 31 * 2 ^ 10
      else if e ≥ 113 then s * 2 ^ 15 + (e - 112) * 2 ^ 10 + m / 2 ^ 13
      else if e ≥ 103 then s * 2 ^ 15 + (2 ^ 23 + m) / 2 ^ (126 - e)
      else s * 2 ^ 15 := by
  have h1 : (s * 2 ^ 31 + e * 2 ^ 23 + m) / 2 ^ 31 % 2 = s := by omega
  have h2 : (s * 2 ^ 31 + e * 2 ^ 23 + m) / 2 ^ 23 % 2 ^ 8 = e := by omega
  have h3 : (s * 2 ^ 31 + e * 2 ^ 23 + m) % 2 ^ 23 = m := by omega
  unfold Float16Compressor.compress
  simp only [h1, h2, h3]

/-- The decoder on a pattern given by its three fields. -/
theorem decompress_fields (s e m : Nat) (hs : s < 2) (he : e < 32) (hm : m < 2 ^ 10) :
    Float16Compressor.decompress (s * 2 ^ 15 + e * 2 ^ 10 + m) =
      if e = 0 then
        if m = 0 then s * 2 ^ 31
        else s * 2 ^ 31 + (103 + Nat.log2 m) * 2 ^ 23 + (m * 2 ^ (23 - Nat.log2 m)) % 2 ^ 23
      else if e = 31 then s * 2 ^ 31 + 255 * 2 ^ 23 + m * 2 ^ 13
      else s * 2 ^ 31 + (e + 112) * 2 ^ 23 + m * 2 ^ 13 := by
  have h1 : (s * 2 ^ 15 + e * 2 ^ 10 + m) / 2 ^ 15 % 2 = s := by omega
  have h2 : (s * 2 ^ 15 + e * 2 ^ 10 + m) / 2 ^ 10 % 2 ^ 5 = e := by omega
  have h3 : (s * 2 ^ 15 + e * 2 ^ 10 + m) % 2 ^ 10 = m := by omega
  unfold Float16Compressor.decompress
  simp only [h1, h2, h3]

/-- A subnormal binary16 mantissa survives normalisation into binary32 and
the shift back. -/
theorem subnormal_round_trip (s m : Nat) (hs : s < 2) (hm0 : m ≠ 0) (hm : m < 2 ^ 10) :
    Float16Compressor.compress
      (s * 2 ^ 31 + (103 + Nat.log2 m) * 2 ^ 23 + (m * 2 ^ (23 - Nat.log2 m)) % 2 ^ 23)
      = s * 2 ^ 15 + m := by
  have hp : Nat.log2 m < 10 := (Nat.log2_lt hm0).mpr hm
  have hlo : 2 ^ Nat.log2 m ≤ m := Nat.log2_self_le hm0
  have hhi : m < 2 ^ (Nat.log2 m + 1) := Nat.lt_log2_self
  generalize Nat.log2 m = p at hp hlo hhi
  rw [compress_fields s (103 + p) _ hs (by omega) (Nat.mod_lt _ (by norm_num))]
  rw [if_neg (by omega), if_neg (by omega), if_neg (by omega), if_pos (by omega)]
  interval_cases p <;> norm_num at hlo hhi ⊢ <;> omega

/-- Claim C19: for every 16-bit pattern `x` that encodes a non-NaN binary16
value (exponent field 31 with a non-zero mantissa is NaN),
`float32_to_float16(float16_to_float32(x)) == x`. -/
theorem float16_round_trip (x : Nat) (hx : x < 2 ^ 16)
    (hnan : ¬ (x / 2 ^ 10 % 2 ^ 5 = 31 ∧ x % 2 ^ 10 ≠ 0)) :
    float32_to_float16 (float16_to_float32 x) = x := by
  obtain ⟨s, e, m, hs, he, hm, rfl⟩ : ∃ s e m, s < 2 ∧ e < 32 ∧ m < 2 ^ 10 ∧
      x = s * 2 ^ 15 + e * 2 ^ 10 + m :=
    ⟨x / 2 ^ 15, x / 2 ^ 10 % 2 ^ 5, x % 2 ^ 10, by omega, by omega, by omega, by omega⟩
  have h2 : (s * 2 ^ 15 + e * 2 ^ 10 + m) / 2 ^ 10 % 2 ^ 5 = e := by omega
  have h3 : (s * 2 ^ 15 + e * 2 ^ 10 + m) % 2 ^ 10 = m := by omega
  rw [h2, h3] at hnan
  unfold float32_to_float16 float16_to_float32
  rw [decompress_fields s e m hs he hm]
  by_cases he0 : e = 0
  · subst he0
    rw [if_pos rfl]
    by_cases hm0 : m = 0
    · subst hm0
      rw [if_pos rfl]
      have := compress_fields s 0 0 hs (by norm_num) (by norm_num)
      simpa using this
    · rw [if_neg hm0, subnormal_round_trip s m hs hm0 hm]
      omega
  · rw [if_neg he0]
    by_cases he31 : e = 31
    · subst he31
      have hm0 : m = 0 := by
        by_contra hc
        exact hnan ⟨rfl, hc⟩
      subst hm0
      rw [if_pos rfl]
      have := compress_fields s 255 0 hs (by norm_num) (by norm_num)
      simpa using this
    · rw [if_neg he31, compress_fields s (e + 112) (m * 2 ^ 13) hs (by omega) (by omega)]
      rw [if_neg (by omega), if_neg (by omega), if_pos (by omega)]
      omega

/-- Witness of C19 at `1.0` (`0x3C00`), at the smallest subnormal (`0x0001`)
and at negative infinity (`0xFC00`). -/
theorem float16_round_trip_witness :
    float32_to_float16 (float16_to_float32 0x3C00) = 0x3C00 ∧
    float32_to_float16 (float16_to_float32 0x0001) = 0x0001 ∧
    float32_to_float16 (float16_to_float32 0xFC00) = 0xFC00 :=
  ⟨float16_round_trip 0x3C00 (by norm_num) (by norm_num),
   float16_round_trip 0x0001 (by norm_num) (by norm_num),
   float16_round_trip 0xFC00 (by norm_num) (by norm_num)⟩

/-! ### Next power of two and highest set bit -/

/-- Claim C21: for every `UInt64` `v > 0`,
`next_power_of_2(v) == (2 * get_highest_bit(v)) mod 2^64`: it is the smallest
power of two strictly greater than `v` when `v < 2^63` and wraps to 0 when
`v >= 2^63`; and `get_power_of_2_values` starts its scan at
`next_power_of_2(v) / 2`, which equals `get_highest_bit(v)` exactly when
`v < 2^63`. -/
theorem next_power_of_2_eq_double_highest_bit (v : Nat) (h0 : 0 < v) (hv : v < 2 ^ 64) :
    next_power_of_2 v = (2 * get_highest_bit_u64 v) % 2 ^ 64 ∧
    (v < 2 ^ 63 → (∃ k, next_power_of_2 v = 2 ^ k) ∧ v < next_power_of_2 v ∧
      (∀ k, v < 2 ^ k → next_power_of_2 v ≤ 2 ^ k)) ∧
    (2 ^ 63 ≤ v → next_power_of_2 v = 0) ∧
    get_power_of_2_values v = (values_loop 64 v (next_power_of_2 v / 2) []).2.2 ∧
    (next_power_of_2 v / 2 = get_highest_bit_u64 v ↔ v < 2 ^ 63) := by
  obtain ⟨k, hk, hlt, hmin, heq⟩ := next_power_of_2_eq v hv
  obtain ⟨j, hj, hle, hlt2⟩ := get_highest_bit_u64_spec v hv (by omega)
  have hkj : k = j + 1 := by
    have h1 : k ≤ j + 1 := hmin (j + 1) hlt2
    have h2 : j < k := by
      by_contra hc
      have : 2 ^ k ≤ 2 ^ j := Nat.pow_le_pow_right (by norm_num) (by omega)
      omega
    omega
  subst hkj
  have hhalf : 2 ^ (j + 1) / 2 = 2 ^ j := by rw [pow_succ]; omega
  have hdouble : 2 * get_highest_bit_u64 v = 2 ^ (j + 1) := by rw [hj, pow_succ]; ring
  have hpos : 0 < 2 ^ j := by positivity
  refine ⟨by rw [heq, hdouble], ?_, ?_, rfl, ?_⟩
  · intro h63
    have hj63 : j + 1 ≤ 63 := hmin 63 h63
    have hlt64 : 2 ^ (j + 1) < 2 ^ 64 := Nat.pow_lt_pow_right (by norm_num) (by omega)
    rw [heq, Nat.mod_eq_of_lt hlt64]
    exact ⟨⟨j + 1, rfl⟩, hlt, fun i hi => Nat.pow_le_pow_right (by norm_num) (hmin i hi)⟩
  · intro h63
    have hj64 : j + 1 = 64 := by
      by_contra hc
      have : 2 ^ (j + 1) ≤ 2 ^ 63 := Nat.pow_le_pow_right (by norm_num) (by omega)
      omega
    rw [heq, hj64]; norm_num
  · rw [heq, hj]
    constructor
    · intro h
      by_contra hc
      have hj64 : j + 1 = 64 := by
        by_contra hc2
        have : 2 ^ (j + 1) ≤ 2 ^ 63 := Nat.pow_le_pow_right (by norm_num) (by omega)
        omega
      rw [hj64] at h
      norm_num at h
      omega
    · intro h63
      have hj63 : j + 1 ≤ 63 := hmin 63 h63
      have hlt64 : 2 ^ (j + 1) < 2 ^ 64 := Nat.pow_lt_pow_right (by norm_num) (by omega)
      rw [Nat.mod_eq_of_lt hlt64, hhalf]

/-- Witness of C21 at `v = 13` (below `2^63`) and at `v = 2^63` (wrapped). -/
theorem next_power_of_2_eq_double_highest_bit_witness :
    next_power_of_2 13 = (2 * get_highest_bit_u64 13) % 2 ^ 64 ∧
    next_power_of_2 13 / 2 = get_highest_bit_u64 13 ∧
    next_power_of_2 (2 ^ 63) = 0 ∧
    ¬ next_power_of_2 (2 ^ 63) / 2 = get_highest_bit_u64 (2 ^ 63) :=
  have h13 := next_power_of_2_eq_double_highest_bit 13 (by norm_num) (by norm_num)
  have h63 := next_power_of_2_eq_double_highest_bit (2 ^ 63) (by norm_num) (by norm_num)
  ⟨h13.1, h13.2.2.2.2.mpr (by norm_num), h63.2.2.1 (by norm_num),
   fun h => absurd (h63.2.2.2.2.mp h) (by norm_num)⟩

end umath
